import Mathlib

/-!
Verification of the core of a terminal Sudoku program (sudoku.c).

The C core is shallowly embedded: the 9x9 grid becomes a function
`Fin 9 → Fin 9 → ℕ` (0 = empty, 1..9 = digit), the three families of
"used digit" bitsets become natural-number bitmasks, and the in-place
mutating search (`solve_rec`, `count_rec`) becomes an explicitly
state-passing function that returns the final board and masks together
with its result.  The C recursion has no fuel; here a fuel parameter
bounds the recursion depth and we prove that fuel 82 always suffices
(the recursion descends one level per emptied cell, and there are 81
cells), so the fuelled functions are total refinements of the C code.
-/

set_option maxHeartbeats 1000000
set_option maxRecDepth 2000
set_option linter.constructorNameAsVariable false

namespace Sudoku

/-- A board: `0` means empty, `1..9` a placed digit (struct Board in the C source). -/
abbrev Board := Fin 9 → Fin 9 → ℕ

/-- The three per-unit bitmask arrays (struct Masks in the C source). -/
structure Masks where
  row : Fin 9 → ℕ
  col : Fin 9 → ℕ
  box : Fin 9 → ℕ

instance : DecidableEq Masks := fun a b =>
  decidable_of_iff (a.row = b.row ∧ a.col = b.col ∧ a.box = b.box)
    (by cases a; cases b; simp)

/-- box_index(r,c) = (r/3)*3 + c/3. -/
def box_index (r c : Fin 9) : Fin 9 :=
  ⟨r.val / 3 * 3 + c.val / 3, by have hr := r.isLt; have hc := c.isLt; omega⟩

/-- ALL = (1<<9)-1, the nine low bits. -/
def ALLBITS : ℕ := 511

/-- Bitwise complement at the C type `unsigned` (32 bits): ~x = 0xFFFFFFFF ^ x. -/
def notU32 (x : ℕ) : ℕ := 4294967295 ^^^ x

/-- Write value `v` into cell (r,c) of the grid. -/
def updateCell (b : Board) (r c : Fin 9) (v : ℕ) : Board :=
  fun i j => if i = r ∧ j = c then v else b i j

/-- All 81 cells in the row-major order every C scan uses. -/
def cellsRowMajor : List (Fin 9 × Fin 9) :=
  (List.finRange 9).flatMap fun r => (List.finRange 9).map fun c => (r, c)

/-- The nine cells of block `i`, in the (dr,dc) order of the C box loops
(k = 3*dr + dc, so k runs through the two nested loops in order). -/
def boxCells (i : Fin 9) : List (Fin 9 × Fin 9) :=
  (List.finRange 9).map fun k =>
    (⟨i.val / 3 * 3 + k.val / 3, by have h1 := i.isLt; have h2 := k.isLt; omega⟩,
     ⟨i.val % 3 * 3 + k.val % 3, by have h1 := i.isLt; have h2 := k.isLt; omega⟩)

/-- One row-mask of masks_init: OR of 1<<(v-1) over the nonzero values of row `i`.
masks_init builds all three arrays in one pass over the cells; per entry the
accumulated value is exactly this OR. -/
def rowMaskInit (b : Board) (i : Fin 9) : ℕ :=
  (List.finRange 9).foldl (fun acc j => if b i j ≠ 0 then acc ||| 1 <<< (b i j - 1) else acc) 0

/-- One column-mask of masks_init. -/
def colMaskInit (b : Board) (i : Fin 9) : ℕ :=
  (List.finRange 9).foldl (fun acc j => if b j i ≠ 0 then acc ||| 1 <<< (b j i - 1) else acc) 0

/-- One block-mask of masks_init. -/
def boxMaskInit (b : Board) (i : Fin 9) : ℕ :=
  (boxCells i).foldl
    (fun acc p => if b p.1 p.2 ≠ 0 then acc ||| 1 <<< (b p.1 p.2 - 1) else acc) 0

/-- masks_init: derive all masks from the board. -/
def masks_init (b : Board) : Masks :=
  { row := rowMaskInit b, col := colMaskInit b, box := boxMaskInit b }

/-- used(r,c) = row-mask[r] | col-mask[c] | box-mask[box_index(r,c)]. -/
def used_mask (m : Masks) (r c : Fin 9) : ℕ :=
  m.row r ||| m.col c ||| m.box (box_index r c)

/-- candidates(r,c) = (~used) & ALL.  On naturals, masking the complement with
ALL is the XOR of ALL with the nine low bits of `used`. -/
def candidates_mask (m : Masks) (r c : Fin 9) : ℕ :=
  ALLBITS ^^^ (used_mask m r c &&& ALLBITS)

/-- apply_set: write `v` to the cell and OR its bit into the three masks. -/
def apply_set (b : Board) (m : Masks) (r c : Fin 9) (v : ℕ) : Board × Masks :=
  (updateCell b r c v,
   { row := Function.update m.row r (m.row r ||| 1 <<< (v - 1)),
     col := Function.update m.col c (m.col c ||| 1 <<< (v - 1)),
     box := Function.update m.box (box_index r c)
              (m.box (box_index r c) ||| 1 <<< (v - 1)) })

/-- apply_clear: read the cell value; if nonzero, clear its bit from the three
masks (mask &= ~bit at 32 bits) and zero the cell. -/
def apply_clear (b : Board) (m : Masks) (r c : Fin 9) : Board × Masks :=
  if b r c = 0 then (b, m)
  else
    (updateCell b r c 0,
     { row := Function.update m.row r (m.row r &&& notU32 (1 <<< (b r c - 1))),
       col := Function.update m.col c (m.col c &&& notU32 (1 <<< (b r c - 1))),
       box := Function.update m.box (box_index r c)
                (m.box (box_index r c) &&& notU32 (1 <<< (b r c - 1))) })

/-- One duplicate-scan of is_legal: fold the 9 values of a unit, tracking used
bits, failing as soon as a nonzero value repeats. -/
def scanDup : List ℕ → ℕ → Bool
  | [], _ => true
  | v :: rest, used =>
    if v = 0 then scanDup rest used
    else
      let bit := 1 <<< (v - 1)
      if used &&& bit ≠ 0 then false else scanDup rest (used ||| bit)

/-- is_legal: no row, column or block contains a duplicate nonzero digit. -/
def is_legal (b : Board) : Bool :=
  ((List.finRange 9).all fun r => scanDup ((List.finRange 9).map fun c => b r c) 0)
  && ((List.finRange 9).all fun c => scanDup ((List.finRange 9).map fun r => b r c) 0)
  && ((List.finRange 9).all fun i => scanDup ((boxCells i).map fun p => b p.1 p.2) 0)

/-- popcount9 wraps __builtin_popcount on a 32-bit unsigned operand. -/
def popcount9 (x : ℕ) : ℕ := (List.range 32).countP fun i => x.testBit i

/-- The candidate digits of a candidate bitmask, lowest bit first: the C loop
`while(cand){ bit = cand & -cand; cand ^= bit; v = ctz(bit)+1; ... }`
visits exactly the set bits of `cand` in ascending order; candidate masks
only carry the nine low bits. -/
def candVals (cand : ℕ) : List ℕ :=
  ((List.range 9).filter fun d => cand.testBit d).map fun d => d + 1

/-- The transient MRV choice (struct Choice). -/
structure Choice where
  r : Fin 9
  c : Fin 9
  cand : ℕ
deriving DecidableEq

/-- The row-major scan of find_best_cell over a remaining cell list, carrying
the best cell seen so far and its candidate count (bestCount starts at 10;
bestR == -1 is modelled by the accumulator being `none`). -/
def fbcAux (b : Board) (m : Masks) :
    List (Fin 9 × Fin 9) → Option Choice → ℕ → Option Choice
  | [], best, _ => best
  | p :: rest, best, bestCount =>
    if b p.1 p.2 ≠ 0 then fbcAux b m rest best bestCount
    else
      let cand := candidates_mask m p.1 p.2
      let cnt := popcount9 cand
      if cnt = 0 then none
      else if cnt < bestCount then
        if cnt = 1 then some ⟨p.1, p.2, cand⟩
        else fbcAux b m rest (some ⟨p.1, p.2, cand⟩) cnt
      else fbcAux b m rest best bestCount

/-- find_best_cell; `none` models a `false` return (dead cell found, or no
empty cell at all). -/
def find_best_cell (b : Board) (m : Masks) : Option Choice :=
  fbcAux b m cellsRowMajor none 10

/-- The any_empty scan at the top of count_rec and solve_rec. -/
def anyEmpty (b : Board) : Bool :=
  cellsRowMajor.any fun p => b p.1 p.2 == 0

/-- Number of empty cells; the measure that shrinks at every recursion level. -/
def emptyCount (b : Board) : ℕ :=
  (Finset.univ.filter fun p : Fin 9 × Fin 9 => b p.1 p.2 = 0).card

/-- The candidate loop of count_rec: set, recurse with limit `lim-total`,
clear, accumulate, and return early once the running total reaches the
limit.  `rec` is the next recursion level. -/
def countLoop (rec : Board → Masks → ℕ → Option (ℕ × Board × Masks)) (r c : Fin 9) :
    List ℕ → Board → Masks → ℕ → ℕ → Option (ℕ × Board × Masks)
  | [], b, m, _, total => some (total, b, m)
  | v :: rest, b, m, lim, total =>
    let s1 := apply_set b m r c v
    match rec s1.1 s1.2 (lim - total) with
    | none => none
    | some (t, b2, m2) =>
      let s3 := apply_clear b2 m2 r c
      let total2 := total + t
      if lim ≤ total2 then some (total2, s3.1, s3.2)
      else countLoop rec r c rest s3.1 s3.2 lim total2

/-- count_rec with explicit recursion fuel; `none` = fuel exhausted (proved
unreachable from fuel 82).  Result carries the final board and masks. -/
def count_rec : ℕ → Board → Masks → ℕ → Option (ℕ × Board × Masks)
  | 0, _, _, _ => none
  | fuel + 1, b, m, lim =>
    if anyEmpty b then
      match find_best_cell b m with
      | none => some (0, b, m)
      | some ch => countLoop (count_rec fuel) ch.r ch.c (candVals ch.cand) b m lim 0
    else some (1, b, m)

/-- count_solutions: init masks, search a copy of the board.  The C function
returns only the count; the copy (and the matched set/clear pairs) leave the
caller board untouched. -/
def count_solutions (b : Board) (limit : ℕ) : ℕ :=
  match count_rec 82 b (masks_init b) limit with
  | some (t, _, _) => t
  | none => 0

/-- The candidate loop of solve_rec: set, recurse, and on failure clear and
try the next candidate. -/
def solveLoop (rec : Board → Masks → Option (Bool × Board × Masks)) (r c : Fin 9) :
    List ℕ → Board → Masks → Option (Bool × Board × Masks)
  | [], b, m => some (false, b, m)
  | v :: rest, b, m =>
    let s1 := apply_set b m r c v
    match rec s1.1 s1.2 with
    | none => none
    | some (true, b2, m2) => some (true, b2, m2)
    | some (false, b2, m2) =>
      let s3 := apply_clear b2 m2 r c
      solveLoop rec r c rest s3.1 s3.2

/-- solve_rec with explicit recursion fuel; the boolean is the C return value
and the board/masks are the in-place state at return. -/
def solve_rec : ℕ → Board → Masks → Option (Bool × Board × Masks)
  | 0, _, _ => none
  | fuel + 1, b, m =>
    if anyEmpty b then
      match find_best_cell b m with
      | none => some (false, b, m)
      | some ch => solveLoop (solve_rec fuel) ch.r ch.c (candVals ch.cand) b m
    else some (true, b, m)

/-- solve_board: init masks and solve in place; `some` carries the solved grid. -/
def solve_board (b : Board) : Option Board :=
  match solve_rec 82 b (masks_init b) with
  | some (true, b2, _) => some b2
  | _ => none

/-! Generator utilities.  rand() is modelled by a stream of naturals together
with a position; every transformation threads the stream. -/

/-- The random source: an arbitrary value stream and the next position. -/
structure Rng where
  g : ℕ → ℕ
  idx : ℕ

/-- One rand() call. -/
def randN (s : Rng) : ℕ × Rng := (s.g s.idx, ⟨s.g, s.idx + 1⟩)

/-- Swap entries i and j of a list (the C array swap). -/
def listSwap (l : List ℕ) (i j : ℕ) : List ℕ :=
  (l.set i (l.getD j 0)).set j (l.getD i 0)

/-- The Fisher–Yates loop of shuffle_array: for i = n-1 down to 1,
j = rand() % (i+1), swap a[i] and a[j].  The recursion argument is i. -/
def shuffleGo : ℕ → List ℕ → Rng → List ℕ × Rng
  | 0, l, s => (l, s)
  | k + 1, l, s =>
    let p := randN s
    let j := p.1 % (k + 2)
    shuffleGo k (listSwap l (k + 1) j) p.2

/-- shuffle_array. -/
def shuffle_array (l : List ℕ) (s : Rng) : List ℕ × Rng :=
  shuffleGo (l.length - 1) l s

/-- base_complete: cell (r,c) = ((r*3 + r/3 + c) % 9) + 1. -/
def base_complete : Board :=
  fun r c => (r.val * 3 + r.val / 3 + c.val) % 9 + 1

/-- permute_digits: relabel digits through a shuffle of [1..9]; map[v] is
entry v-1 of the shuffled list.  In the C code map[0] is never read for the
grids this is applied to (all cells 1..9); out-of-range reads are modelled
as 0. -/
def permute_digits (b : Board) (s : Rng) : Board × Rng :=
  let p := shuffle_array [1, 2, 3, 4, 5, 6, 7, 8, 9] s
  (fun r c => if b r c = 0 then 0 else p.1.getD (b r c - 1) 0, p.2)

/-- Board read with plain natural indices; the C code only ever reaches
in-range indices, out-of-range reads are modelled as 0. -/
def bget (b : Board) (r c : ℕ) : ℕ :=
  if h : r < 9 ∧ c < 9 then b ⟨r, h.1⟩ ⟨c, h.2⟩ else 0

/-- Board write with plain natural indices; out-of-range writes are dropped. -/
def bset (b : Board) (r c : ℕ) (v : ℕ) : Board :=
  if h : r < 9 ∧ c < 9 then updateCell b ⟨r, h.1⟩ ⟨c, h.2⟩ v else b

/-- One band of shuffle_rows_within_bands: rows 3*band+i are replaced by the
rows listed in the shuffled [3*band, 3*band+1, 3*band+2]. -/
def bandStep (b : Board) (band : ℕ) (s : Rng) : Board × Rng :=
  let p := shuffle_array [band * 3, band * 3 + 1, band * 3 + 2] s
  (fun r c => if r.val / 3 = band then bget b (p.1.getD (r.val % 3) 0) c.val else b r c,
   p.2)

/-- shuffle_rows_within_bands: the three bands in order. -/
def shuffle_rows_within_bands (b : Board) (s : Rng) : Board × Rng :=
  let p0 := bandStep b 0 s
  let p1 := bandStep p0.1 1 p0.2
  bandStep p1.1 2 p1.2

/-- One stack of shuffle_cols_within_stacks. -/
def stackStep (b : Board) (stack : ℕ) (s : Rng) : Board × Rng :=
  let p := shuffle_array [stack * 3, stack * 3 + 1, stack * 3 + 2] s
  (fun r c => if c.val / 3 = stack then bget b r.val (p.1.getD (c.val % 3) 0) else b r c,
   p.2)

/-- shuffle_cols_within_stacks: the three stacks in order. -/
def shuffle_cols_within_stacks (b : Board) (s : Rng) : Board × Rng :=
  let p0 := stackStep b 0 s
  let p1 := stackStep p0.1 1 p0.2
  stackStep p1.1 2 p1.2

/-- shuffle_bands: new row r reads old row bands[r/3]*3 + r%3. -/
def shuffle_bands (b : Board) (s : Rng) : Board × Rng :=
  let p := shuffle_array [0, 1, 2] s
  (fun r c => bget b (p.1.getD (r.val / 3) 0 * 3 + r.val % 3) c.val, p.2)

/-- shuffle_stacks: new column c reads old column stacks[c/3]*3 + c%3. -/
def shuffle_stacks (b : Board) (s : Rng) : Board × Rng :=
  let p := shuffle_array [0, 1, 2] s
  (fun r c => bget b r.val (p.1.getD (c.val / 3) 0 * 3 + c.val % 3), p.2)

/-- generate_complete: base pattern, digit relabelling, row shuffles within
bands, column shuffles within stacks, band shuffle, stack shuffle. -/
def generate_complete (s : Rng) : Board × Rng :=
  let p1 := permute_digits base_complete s
  let p2 := shuffle_rows_within_bands p1.1 p1.2
  let p3 := shuffle_cols_within_stacks p2.1 p2.2
  let p4 := shuffle_bands p3.1 p3.2
  shuffle_stacks p4.1 p4.2

/-- Difficulty tiers. -/
inductive Difficulty
  | easy
  | medium
  | hard
deriving DecidableEq

/-- target_clues: the difficulty → clue budget table. -/
def target_clues : Difficulty → ℕ
  | Difficulty.easy => 45
  | Difficulty.medium => 36
  | Difficulty.hard => 27

/-- The tentative grid of one carving step at linear cell index i: clear
(r,c) = (i/9, i%9), and also its distinct symmetric partner (8-r, 8-c) when
that is still filled; the second component is `removed`, the number of
cells cleared. -/
def carveTest (p : Board) (i : ℕ) : Board × ℕ :=
  let r := i / 9
  let c := i % 9
  let sr := 8 - r
  let sc := 8 - c
  let t1 := bset p r c 0
  if ¬(sr = r ∧ sc = c) ∧ bget t1 sr sc ≠ 0 then (bset t1 sr sc 0, 2) else (t1, 1)

/-- The carving loop of make_puzzle over the shuffled cell order, tracking
the clue counter and the attempt counter with its 20000 safety cap. -/
def carveLoop : List ℕ → Board → ℕ → ℕ → ℕ → Board
  | [], p, _, _, _ => p
  | i :: rest, p, clues, target, attempts =>
    if clues ≤ target then p
    else
      let r := i / 9
      let c := i % 9
      if bget p r c = 0 then carveLoop rest p clues target attempts
      else
        let sr := 8 - r
        let sc := 8 - c
        let tst := carveTest p i
        let sols := count_solutions tst.1 2
        let p2 := if sols = 1 then
                    (if sr = r ∧ sc = c then bset p r c 0
                     else bset (bset p r c 0) sr sc 0)
                  else p
        let clues2 := if sols = 1 then clues - tst.2 else clues
        let attempts2 := attempts + 1
        if 20000 < attempts2 then p2 else carveLoop rest p2 clues2 target attempts2

/-- make_puzzle: copy the solution, shuffle the 81 cell indices, and run the
carving loop from 81 clues down towards the difficulty target. -/
def make_puzzle (solution : Board) (d : Difficulty) (s : Rng) : Board × Rng :=
  let target := target_clues d
  let p := shuffle_array (List.range 81) s
  (carveLoop p.1 solution 81 target 0, p.2)

/-! The specification-level predicates the claims quantify over. -/

/-- A well-formed grid: every cell holds 0..9. -/
def WellFormed (b : Board) : Prop := ∀ r c : Fin 9, b r c ≤ 9

/-- A completely filled grid: no empty cell. -/
def Filled (b : Board) : Prop := ∀ r c : Fin 9, b r c ≠ 0

/-- `e` agrees with `b` on every filled cell of `b`. -/
def BExtends (b e : Board) : Prop := ∀ r c : Fin 9, b r c ≠ 0 → e r c = b r c

/-- No duplicate nonzero digit in any row, column or block. -/
def Legal (b : Board) : Prop :=
  (∀ r c1 c2 : Fin 9, c1 ≠ c2 → b r c1 ≠ 0 → b r c1 ≠ b r c2) ∧
  (∀ c r1 r2 : Fin 9, r1 ≠ r2 → b r1 c ≠ 0 → b r1 c ≠ b r2 c) ∧
  (∀ r1 c1 r2 c2 : Fin 9, box_index r1 c1 = box_index r2 c2 → (r1, c1) ≠ (r2, c2) →
    b r1 c1 ≠ 0 → b r1 c1 ≠ b r2 c2)

/-- `e` is a solution of the partial board `b`. -/
def IsCompletion (b e : Board) : Prop :=
  BExtends b e ∧ (∀ r c : Fin 9, 1 ≤ e r c ∧ e r c ≤ 9) ∧ Legal e

instance (b : Board) : Decidable (Legal b) := by
  unfold Legal; infer_instance

instance (b : Board) : Decidable (WellFormed b) := by
  unfold WellFormed; infer_instance

instance (b : Board) : Decidable (Filled b) := by
  unfold Filled; infer_instance

instance (b e : Board) : Decidable (BExtends b e) := by
  unfold BExtends; infer_instance

instance (b e : Board) : Decidable (IsCompletion b e) := by
  unfold IsCompletion; infer_instance

/-- Boards with all cells in 1..9 encoded as functions into Fin 9. -/
def encodeF (f : Fin 9 → Fin 9 → Fin 9) : Board := fun r c => (f r c).val + 1

/-- The true number of solutions of a partial board. -/
def numCompletions (b : Board) : ℕ :=
  (Finset.univ.filter fun f : Fin 9 → Fin 9 → Fin 9 => IsCompletion b (encodeF f)).card

/-- The mask-consistency invariant: a bit is set in a unit mask exactly when
the corresponding digit occurs in that unit. -/
def Consistent (b : Board) (m : Masks) : Prop :=
  ∀ (i : Fin 9) (d : ℕ),
    ((m.row i).testBit d ↔ ∃ c, b i c = d + 1) ∧
    ((m.col i).testBit d ↔ ∃ r, b r i = d + 1) ∧
    ((m.box i).testBit d ↔ ∃ r c, box_index r c = i ∧ b r c = d + 1)

/-- The C type invariant of struct Masks: every entry is a 32-bit unsigned. -/
def MasksU32 (m : Masks) : Prop :=
  ∀ i : Fin 9, m.row i < 4294967296 ∧ m.col i < 4294967296 ∧ m.box i < 4294967296

instance (m : Masks) : Decidable (MasksU32 m) := by
  unfold MasksU32; infer_instance

/-! Basic bit lemmas. -/

theorem one_shiftLeft (n : ℕ) : 1 <<< n = 2 ^ n := by
  rw [Nat.shiftLeft_eq, one_mul]

theorem testBit_one_shiftLeft (n i : ℕ) : (1 <<< n).testBit i = decide (n = i) := by
  rw [one_shiftLeft, Nat.testBit_two_pow]

theorem land_shift_ne_zero (x d : ℕ) : x &&& 1 <<< d ≠ 0 ↔ x.testBit d = true := by
  constructor
  · intro h
    by_contra hb
    apply h
    apply Nat.eq_of_testBit_eq
    intro i
    simp only [Nat.testBit_land, testBit_one_shiftLeft, Nat.zero_testBit]
    rcases eq_or_ne d i with rfl | hne
    · simp only [Bool.not_eq_true] at hb
      simp [hb]
    · simp [hne]
  · intro h h0
    have : (x &&& 1 <<< d).testBit d = true := by
      simp [Nat.testBit_land, testBit_one_shiftLeft, h]
    rw [h0, Nat.zero_testBit] at this
    exact Bool.false_ne_true this

theorem testBit_orFold {α : Type} (f : α → ℕ) (P : α → Prop) [DecidablePred P]
    (l : List α) : ∀ (init d : ℕ),
    ((l.foldl (fun acc x => if P x then acc ||| 1 <<< f x else acc) init).testBit d = true)
      ↔ (init.testBit d = true ∨ ∃ x ∈ l, P x ∧ f x = d) := by
  induction l with
  | nil => intro init d; simp
  | cons x rest ih =>
    intro init d
    simp only [List.foldl_cons]
    by_cases hx : P x
    · rw [if_pos hx, ih]
      simp only [Nat.testBit_lor, Bool.or_eq_true, testBit_one_shiftLeft,
        decide_eq_true_eq, List.mem_cons]
      constructor
      · rintro ((h | h) | ⟨y, hy, hPy, hfy⟩)
        · exact Or.inl h
        · exact Or.inr ⟨x, Or.inl rfl, hx, h⟩
        · exact Or.inr ⟨y, Or.inr hy, hPy, hfy⟩
      · rintro (h | ⟨y, hy2 | hy, hPy, hfy⟩)
        · exact Or.inl (Or.inl h)
        · subst hy2; exact Or.inl (Or.inr hfy)
        · exact Or.inr ⟨y, hy, hPy, hfy⟩
    · rw [if_neg hx, ih]
      simp only [List.mem_cons]
      constructor
      · rintro (h | ⟨y, hy, hPy, hfy⟩)
        · exact Or.inl h
        · exact Or.inr ⟨y, Or.inr hy, hPy, hfy⟩
      · rintro (h | ⟨y, hy2 | hy, hPy, hfy⟩)
        · exact Or.inl h
        · subst hy2; exact absurd hPy hx
        · exact Or.inr ⟨y, hy, hPy, hfy⟩

theorem testBit_511 (d : ℕ) : Nat.testBit 511 d = decide (d < 9) := by
  rw [show (511 : ℕ) = 2 ^ 9 - 1 from rfl, Nat.testBit_two_pow_sub_one]

theorem mem_cellsRowMajor (p : Fin 9 × Fin 9) : p ∈ cellsRowMajor := by
  unfold cellsRowMajor
  simp only [List.mem_flatMap, List.mem_map]
  exact ⟨p.1, List.mem_finRange _, p.2, List.mem_finRange _, rfl⟩

theorem mem_boxCells {i : Fin 9} {p : Fin 9 × Fin 9} :
    p ∈ boxCells i ↔ box_index p.1 p.2 = i := by
  unfold boxCells
  simp only [List.mem_map]
  constructor
  · rintro ⟨k, -, rfl⟩
    have h1 := i.isLt
    have h2 := k.isLt
    apply Fin.ext
    show (i.val / 3 * 3 + k.val / 3) / 3 * 3 + (i.val % 3 * 3 + k.val % 3) / 3 = i.val
    omega
  · intro h
    have h1 := i.isLt
    have hr := p.1.isLt
    have hc := p.2.isLt
    have hbv : p.1.val / 3 * 3 + p.2.val / 3 = i.val := congrArg Fin.val h
    refine ⟨⟨p.1.val % 3 * 3 + p.2.val % 3, by omega⟩, List.mem_finRange _, ?_⟩
    have e1 : i.val / 3 * 3 + (p.1.val % 3 * 3 + p.2.val % 3) / 3 = p.1.val := by omega
    have e2 : i.val % 3 * 3 + (p.1.val % 3 * 3 + p.2.val % 3) % 3 = p.2.val := by omega
    refine Prod.ext ?_ ?_
    · exact Fin.ext e1
    · exact Fin.ext e2

theorem boxCells_nodup (i : Fin 9) : (boxCells i).Nodup := by
  unfold boxCells
  apply List.Nodup.map
  · intro k1 k2 h
    have h1 := congrArg (fun p => (Prod.fst p).val) h
    have h2 := congrArg (fun p => (Prod.snd p).val) h
    simp only at h1 h2
    have g1 := k1.isLt
    have g2 := k2.isLt
    apply Fin.ext
    omega
  · exact List.nodup_finRange 9

/-! masks_init establishes the consistency invariant from any board. -/

theorem rowMaskInit_testBit (b : Board) (i : Fin 9) (d : ℕ) :
    (rowMaskInit b i).testBit d = true ↔ ∃ c, b i c = d + 1 := by
  unfold rowMaskInit
  rw [testBit_orFold]
  simp only [Nat.zero_testBit, Bool.false_eq_true, false_or]
  constructor
  · rintro ⟨c, -, hne, hd⟩
    exact ⟨c, by omega⟩
  · rintro ⟨c, hc⟩
    exact ⟨c, List.mem_finRange _, by omega, by omega⟩

theorem colMaskInit_testBit (b : Board) (i : Fin 9) (d : ℕ) :
    (colMaskInit b i).testBit d = true ↔ ∃ r, b r i = d + 1 := by
  unfold colMaskInit
  rw [testBit_orFold]
  simp only [Nat.zero_testBit, Bool.false_eq_true, false_or]
  constructor
  · rintro ⟨r, -, hne, hd⟩
    exact ⟨r, by omega⟩
  · rintro ⟨r, hr⟩
    exact ⟨r, List.mem_finRange _, by omega, by omega⟩

theorem boxMaskInit_testBit (b : Board) (i : Fin 9) (d : ℕ) :
    (boxMaskInit b i).testBit d = true ↔ ∃ r c, box_index r c = i ∧ b r c = d + 1 := by
  unfold boxMaskInit
  rw [testBit_orFold]
  simp only [Nat.zero_testBit, Bool.false_eq_true, false_or]
  constructor
  · rintro ⟨p, hp, hne, hd⟩
    exact ⟨p.1, p.2, mem_boxCells.mp hp, by omega⟩
  · rintro ⟨r, c, hbi, hrc⟩
    refine ⟨(r, c), mem_boxCells.mpr hbi, ?_, ?_⟩
    · show b r c ≠ 0
      omega
    · show b r c - 1 = d
      omega

theorem masks_init_consistent (b : Board) : Consistent b (masks_init b) := by
  intro i d
  exact ⟨rowMaskInit_testBit b i d, colMaskInit_testBit b i d, boxMaskInit_testBit b i d⟩

/-! Candidate masks. -/

theorem testBit_candidates (m : Masks) (r c : Fin 9) (d : ℕ) :
    (candidates_mask m r c).testBit d = true ↔
      d < 9 ∧ (used_mask m r c).testBit d = false := by
  unfold candidates_mask ALLBITS
  by_cases hd : d < 9 <;> by_cases hu : (used_mask m r c).testBit d = true
  · simp [Nat.testBit_xor, Nat.testBit_land, testBit_511, hd, hu]
  · simp only [Bool.not_eq_true] at hu
    simp [Nat.testBit_xor, Nat.testBit_land, testBit_511, hd, hu]
  · simp [Nat.testBit_xor, Nat.testBit_land, testBit_511, hd, hu]
  · simp only [Bool.not_eq_true] at hu
    simp [Nat.testBit_xor, Nat.testBit_land, testBit_511, hd, hu]

theorem candidates_lt (m : Masks) (r c : Fin 9) : candidates_mask m r c < 512 := by
  have h1 : (511 : ℕ) < 2 ^ 9 := by norm_num
  have h2 : used_mask m r c &&& ALLBITS < 2 ^ 9 :=
    lt_of_le_of_lt Nat.and_le_right (by norm_num [ALLBITS])
  exact Nat.xor_lt_two_pow h1 h2

theorem candidates_eq_zero_iff (m : Masks) (r c : Fin 9) :
    candidates_mask m r c = 0 ↔ popcount9 (candidates_mask m r c) = 0 := by
  constructor
  · intro h
    simp [h, popcount9, Nat.zero_testBit]
  · intro h
    apply Nat.eq_of_testBit_eq
    intro i
    rw [Nat.zero_testBit]
    by_cases hi : i < 9
    · have := List.countP_eq_zero.mp h i (by simp; omega)
      simpa using this
    · by_contra hb
      simp only [Bool.not_eq_false] at hb
      have := (testBit_candidates m r c i).mp hb
      omega

/-! Cell updates and the set/clear round trip. -/

theorem updateCell_same (b : Board) (r c : Fin 9) (v : ℕ) :
    updateCell b r c v r c = v := by
  simp [updateCell]

theorem updateCell_other (b : Board) (r c : Fin 9) (v : ℕ) (i j : Fin 9)
    (h : ¬(i = r ∧ j = c)) : updateCell b r c v i j = b i j := by
  simp [updateCell, h]

theorem lor_land_notU32 (x d : ℕ) (hd : d < 32) (hx : x < 4294967296)
    (hb : x.testBit d = false) : (x ||| 1 <<< d) &&& notU32 (1 <<< d) = x := by
  apply Nat.eq_of_testBit_eq
  intro i
  simp only [Nat.testBit_land, Nat.testBit_lor, notU32, Nat.testBit_xor,
    testBit_one_shiftLeft]
  rw [show (4294967295 : ℕ) = 2 ^ 32 - 1 from rfl, Nat.testBit_two_pow_sub_one]
  by_cases hi : i < 32
  · rcases eq_or_ne d i with rfl | hdi
    · simp [hb, hi]
    · simp [hdi, hi]
  · have hxi : x.testBit i = false := by
      apply Nat.testBit_lt_two_pow
      calc x < 4294967296 := hx
        _ = 2 ^ 32 := by norm_num
        _ ≤ 2 ^ i := Nat.pow_le_pow_right (by norm_num) (by omega)
    have hdi : d ≠ i := by omega
    simp [hxi, hdi, hi]

theorem set_clear_roundtrip (b : Board) (m : Masks) (r c : Fin 9) (v : ℕ)
    (h0 : b r c = 0) (hv1 : 1 ≤ v) (hv9 : v ≤ 9) (hm : MasksU32 m)
    (hrow : (m.row r).testBit (v - 1) = false)
    (hcol : (m.col c).testBit (v - 1) = false)
    (hbox : (m.box (box_index r c)).testBit (v - 1) = false) :
    apply_clear (apply_set b m r c v).1 (apply_set b m r c v).2 r c = (b, m) := by
  have h1 : (apply_set b m r c v).1 r c = v := by
    simp [apply_set, updateCell]
  have hd32 : v - 1 < 32 := by omega
  unfold apply_clear
  rw [h1, if_neg (by omega)]
  refine Prod.ext ?_ ?_
  · show updateCell (apply_set b m r c v).1 r c 0 = b
    funext i j
    by_cases hij : i = r ∧ j = c
    · obtain ⟨rfl, rfl⟩ := hij
      rw [updateCell_same, h0]
    · rw [updateCell_other _ _ _ _ _ _ hij]
      show (apply_set b m r c v).1 i j = b i j
      simp only [apply_set]
      exact updateCell_other _ _ _ _ _ _ hij
  · show Masks.mk _ _ _ = m
    cases m with
    | mk mr mc mb =>
      simp only [apply_set, Masks.mk.injEq]
      refine ⟨?_, ?_, ?_⟩
      · rw [Function.update_idem, Function.update_same,
            lor_land_notU32 _ _ hd32 ((hm r).1) hrow, Function.update_eq_self]
      · rw [Function.update_idem, Function.update_same,
            lor_land_notU32 _ _ hd32 ((hm c).2.1) hcol, Function.update_eq_self]
      · rw [Function.update_idem, Function.update_same,
            lor_land_notU32 _ _ hd32 ((hm (box_index r c)).2.2) hbox,
            Function.update_eq_self]

theorem masksU32_apply_set (b : Board) (m : Masks) (r c : Fin 9) (v : ℕ)
    (hv9 : v ≤ 9) (hm : MasksU32 m) : MasksU32 (apply_set b m r c v).2 := by
  intro i
  have hbit : 1 <<< (v - 1) < 4294967296 := by
    rw [one_shiftLeft]
    calc 2 ^ (v - 1) ≤ 2 ^ 8 := Nat.pow_le_pow_right (by norm_num) (by omega)
      _ < 4294967296 := by norm_num
  have hor : ∀ x : ℕ, x < 4294967296 → x ||| 1 <<< (v - 1) < 4294967296 := by
    intro x hx
    have := Nat.or_lt_two_pow (n := 32) (by norm_num at hx ⊢; exact hx)
      (by norm_num at hbit ⊢; exact hbit)
    norm_num at this ⊢
    exact this
  refine ⟨?_, ?_, ?_⟩ <;> simp only [apply_set]
  · by_cases hi : i = r
    · subst hi; rw [Function.update_same]; exact hor _ (hm i).1
    · rw [Function.update_noteq hi]; exact (hm i).1
  · by_cases hi : i = c
    · subst hi; rw [Function.update_same]; exact hor _ (hm i).2.1
    · rw [Function.update_noteq hi]; exact (hm i).2.1
  · by_cases hi : i = box_index r c
    · subst hi; rw [Function.update_same]; exact hor _ (hm (box_index r c)).2.2
    · rw [Function.update_noteq hi]; exact (hm i).2.2

theorem update_land_lt (f : Fin 9 → ℕ) (a : Fin 9) (y : ℕ)
    (hf : ∀ i, f i < 4294967296) (i : Fin 9) :
    Function.update f a (f a &&& y) i < 4294967296 := by
  by_cases hi : i = a
  · subst hi; rw [Function.update_same]; exact lt_of_le_of_lt Nat.and_le_left (hf i)
  · rw [Function.update_noteq hi]; exact hf i

theorem masksU32_apply_clear (b : Board) (m : Masks) (r c : Fin 9)
    (hm : MasksU32 m) : MasksU32 (apply_clear b m r c).2 := by
  unfold apply_clear
  by_cases h0 : b r c = 0
  · rw [if_pos h0]; exact hm
  · rw [if_neg h0]
    intro i
    refine ⟨?_, ?_, ?_⟩
    · exact update_land_lt m.row r _ (fun j => (hm j).1) i
    · exact update_land_lt m.col c _ (fun j => (hm j).2.1) i
    · exact update_land_lt m.box (box_index r c) _ (fun j => (hm j).2.2) i

theorem popcount9_zero : popcount9 0 = 0 := by
  simp [popcount9, Nat.zero_testBit]

theorem popcount9_candidates_le (m : Masks) (r c : Fin 9) :
    popcount9 (candidates_mask m r c) ≤ 9 := by
  unfold popcount9
  calc (List.range 32).countP (fun i => (candidates_mask m r c).testBit i)
      ≤ (List.range 32).countP (fun i => decide (i < 9)) := by
        apply List.countP_mono_left
        intro x hx hb
        have := (testBit_candidates m r c x).mp hb
        simp
        omega
    _ = 9 := by decide

/-! The find_best_cell scan. -/

theorem fbcAux_some (b : Board) (m : Masks) :
    ∀ (L : List (Fin 9 × Fin 9)) (best : Option Choice) (bc : ℕ),
    (∀ ch, best = some ch →
      b ch.r ch.c = 0 ∧ ch.cand = candidates_mask m ch.r ch.c ∧ ch.cand ≠ 0) →
    ∀ ch, fbcAux b m L best bc = some ch →
      b ch.r ch.c = 0 ∧ ch.cand = candidates_mask m ch.r ch.c ∧ ch.cand ≠ 0 := by
  intro L
  induction L with
  | nil => intro best bc hbest ch h; exact hbest ch h
  | cons p rest ih =>
    intro best bc hbest ch h
    rw [fbcAux] at h
    by_cases hp : b p.1 p.2 ≠ 0
    · rw [if_pos hp] at h
      exact ih best bc hbest ch h
    · rw [if_neg hp] at h
      push_neg at hp
      by_cases hz : popcount9 (candidates_mask m p.1 p.2) = 0
      · rw [if_pos hz] at h
        exact absurd h (by simp)
      · rw [if_neg hz] at h
        have hcne : candidates_mask m p.1 p.2 ≠ 0 := by
          intro he
          exact hz (by rw [he]; exact popcount9_zero)
        by_cases hlt : popcount9 (candidates_mask m p.1 p.2) < bc
        · rw [if_pos hlt] at h
          by_cases h1 : popcount9 (candidates_mask m p.1 p.2) = 1
          · rw [if_pos h1] at h
            obtain rfl : ch = ⟨p.1, p.2, candidates_mask m p.1 p.2⟩ :=
              (Option.some_injective _ h).symm
            exact ⟨hp, rfl, hcne⟩
          · rw [if_neg h1] at h
            refine ih _ _ ?_ ch h
            rintro ch2 h2
            obtain rfl : ch2 = ⟨p.1, p.2, candidates_mask m p.1 p.2⟩ :=
              (Option.some_injective _ h2).symm
            exact ⟨hp, rfl, hcne⟩
        · rw [if_neg hlt] at h
          exact ih best bc hbest ch h

theorem find_best_cell_some (b : Board) (m : Masks) (ch : Choice)
    (h : find_best_cell b m = some ch) :
    b ch.r ch.c = 0 ∧ ch.cand = candidates_mask m ch.r ch.c ∧ ch.cand ≠ 0 :=
  fbcAux_some b m cellsRowMajor none 10 (by simp) ch h

theorem fbcAux_none (b : Board) (m : Masks) :
    ∀ (L : List (Fin 9 × Fin 9)) (best : Option Choice) (bc : ℕ),
    (best = none → bc = 10) →
    fbcAux b m L best bc = none →
    (∃ p ∈ L, b p.1 p.2 = 0 ∧ candidates_mask m p.1 p.2 = 0) ∨
      (best = none ∧ ∀ p ∈ L, b p.1 p.2 ≠ 0) := by
  intro L
  induction L with
  | nil =>
    intro best bc hcoup h
    rw [fbcAux] at h
    exact Or.inr ⟨h, by simp⟩
  | cons p rest ih =>
    intro best bc hcoup h
    rw [fbcAux] at h
    by_cases hp : b p.1 p.2 ≠ 0
    · rw [if_pos hp] at h
      rcases ih best bc hcoup h with h2 | ⟨hb, hall⟩
      · obtain ⟨q, hq, hqe⟩ := h2
        exact Or.inl ⟨q, List.mem_cons_of_mem _ hq, hqe⟩
      · refine Or.inr ⟨hb, ?_⟩
        intro q hq
        rcases List.mem_cons.mp hq with rfl | hq2
        · exact hp
        · exact hall q hq2
    · rw [if_neg hp] at h
      push_neg at hp
      by_cases hz : popcount9 (candidates_mask m p.1 p.2) = 0
      · refine Or.inl ⟨p, List.mem_cons_self _ _, hp, ?_⟩
        exact (candidates_eq_zero_iff m p.1 p.2).mpr hz
      · rw [if_neg hz] at h
        by_cases hlt : popcount9 (candidates_mask m p.1 p.2) < bc
        · rw [if_pos hlt] at h
          by_cases h1 : popcount9 (candidates_mask m p.1 p.2) = 1
          · rw [if_pos h1] at h
            exact absurd h (by simp)
          · rw [if_neg h1] at h
            rcases ih _ _ (by simp) h with h2 | ⟨hb, hall⟩
            · obtain ⟨q, hq, hqe⟩ := h2
              exact Or.inl ⟨q, List.mem_cons_of_mem _ hq, hqe⟩
            · exact absurd hb (by simp)
        · rw [if_neg hlt] at h
          rcases ih best bc hcoup h with h2 | ⟨hb, hall⟩
          · obtain ⟨q, hq, hqe⟩ := h2
            exact Or.inl ⟨q, List.mem_cons_of_mem _ hq, hqe⟩
          · exfalso
            rw [hcoup hb] at hlt
            exact hlt (lt_of_le_of_lt (popcount9_candidates_le m p.1 p.2) (by norm_num))

theorem find_best_cell_none (b : Board) (m : Masks)
    (h : find_best_cell b m = none) (he : ∃ r c : Fin 9, b r c = 0) :
    ∃ r c : Fin 9, b r c = 0 ∧ candidates_mask m r c = 0 := by
  rcases fbcAux_none b m cellsRowMajor none 10 (fun _ => rfl) h with h2 | ⟨-, hall⟩
  · obtain ⟨p, -, hp0, hpc⟩ := h2
    exact ⟨p.1, p.2, hp0, hpc⟩
  · obtain ⟨r, c, hrc⟩ := he
    exact absurd hrc (hall (r, c) (mem_cellsRowMajor _))

/-! any_empty. -/

theorem anyEmpty_true (b : Board) :
    anyEmpty b = true ↔ ∃ r c : Fin 9, b r c = 0 := by
  unfold anyEmpty
  rw [List.any_eq_true]
  constructor
  · rintro ⟨p, -, hp⟩
    exact ⟨p.1, p.2, by simpa using hp⟩
  · rintro ⟨r, c, h⟩
    exact ⟨(r, c), mem_cellsRowMajor _, by simpa using h⟩

theorem anyEmpty_false (b : Board) :
    anyEmpty b = false ↔ ∀ r c : Fin 9, b r c ≠ 0 := by
  rw [← Bool.not_eq_true, anyEmpty_true]
  push_neg
  constructor
  · intro h r c; exact h r c
  · intro h r c; exact h r c

/-! Candidate values. -/

theorem candVals_mem (cand v : ℕ) :
    v ∈ candVals cand ↔ ∃ d, d < 9 ∧ cand.testBit d = true ∧ v = d + 1 := by
  unfold candVals
  simp only [List.mem_map, List.mem_filter, List.mem_range]
  constructor
  · rintro ⟨d, ⟨hd, hb⟩, rfl⟩
    exact ⟨d, hd, hb, rfl⟩
  · rintro ⟨d, hd, hb, rfl⟩
    exact ⟨d, ⟨hd, hb⟩, rfl⟩

theorem used_mask_false (m : Masks) (r c : Fin 9) (d : ℕ)
    (h : (used_mask m r c).testBit d = false) :
    (m.row r).testBit d = false ∧ (m.col c).testBit d = false ∧
      (m.box (box_index r c)).testBit d = false := by
  unfold used_mask at h
  simp only [Nat.testBit_lor, Bool.or_eq_false_iff] at h
  exact ⟨h.1.1, h.1.2, h.2⟩

/-- Every candidate value from a choice of find_best_cell satisfies the
preconditions of the set/clear round trip. -/
theorem candVal_fresh (m : Masks) (r c : Fin 9) (v : ℕ)
    (hv : v ∈ candVals (candidates_mask m r c)) :
    1 ≤ v ∧ v ≤ 9 ∧ (m.row r).testBit (v - 1) = false ∧
      (m.col c).testBit (v - 1) = false ∧
      (m.box (box_index r c)).testBit (v - 1) = false := by
  obtain ⟨d, hd, hb, rfl⟩ := (candVals_mem _ v).mp hv
  obtain ⟨-, hu⟩ := (testBit_candidates m r c d).mp hb
  obtain ⟨h1, h2, h3⟩ := used_mask_false m r c d hu
  simp only [Nat.add_sub_cancel]
  exact ⟨by omega, by omega, h1, h2, h3⟩

/-! State restoration: count_rec and solve_rec leave board and masks exactly
as they found them (count_rec always, solve_rec on failure). -/

theorem countLoop_state (rec : Board → Masks → ℕ → Option (ℕ × Board × Masks))
    (hrec : ∀ b1 m1 l1 t b2 m2, MasksU32 m1 → rec b1 m1 l1 = some (t, b2, m2) →
      b2 = b1 ∧ m2 = m1)
    (r c : Fin 9) :
    ∀ (vs : List ℕ) (b : Board) (m : Masks) (lim total : ℕ),
    b r c = 0 → MasksU32 m →
    (∀ v ∈ vs, 1 ≤ v ∧ v ≤ 9 ∧ (m.row r).testBit (v - 1) = false ∧
      (m.col c).testBit (v - 1) = false ∧
      (m.box (box_index r c)).testBit (v - 1) = false) →
    ∀ t b2 m2, countLoop rec r c vs b m lim total = some (t, b2, m2) →
      b2 = b ∧ m2 = m := by
  intro vs
  induction vs with
  | nil =>
    intro b m lim total h0 hm hvs t b2 m2 h
    rw [countLoop] at h
    obtain ⟨-, rfl, rfl⟩ := Prod.mk.injEq .. ▸ (Option.some_injective _ h)
    exact ⟨rfl, rfl⟩
  | cons v rest ih =>
    intro b m lim total h0 hm hvs t b2 m2 h
    obtain ⟨hv1, hv9, hr, hc, hb⟩ := hvs v (List.mem_cons_self _ _)
    rw [countLoop] at h
    cases hcall : rec (apply_set b m r c v).1 (apply_set b m r c v).2 (lim - total) with
    | none => rw [hcall] at h; exact absurd h (by simp)
    | some res =>
      obtain ⟨t1, b1, m1⟩ := res
      rw [hcall] at h
      obtain ⟨rfl, rfl⟩ := hrec _ _ _ _ _ _ (masksU32_apply_set b m r c v hv9 hm) hcall
      dsimp only at h
      rw [set_clear_roundtrip b m r c v h0 hv1 hv9 hm hr hc hb] at h
      dsimp only at h
      by_cases hl : lim ≤ total + t1
      · rw [if_pos hl] at h
        obtain ⟨-, rfl, rfl⟩ := Prod.mk.injEq .. ▸ (Option.some_injective _ h)
        exact ⟨rfl, rfl⟩
      · rw [if_neg hl] at h
        exact ih b m lim (total + t1) h0 hm
          (fun w hw => hvs w (List.mem_cons_of_mem _ hw)) t b2 m2 h

theorem count_rec_state :
    ∀ (fuel : ℕ) (b : Board) (m : Masks) (lim t : ℕ) (b2 : Board) (m2 : Masks),
    MasksU32 m → count_rec fuel b m lim = some (t, b2, m2) → b2 = b ∧ m2 = m := by
  intro fuel
  induction fuel with
  | zero => intro b m lim t b2 m2 hm h; exact absurd h (by simp [count_rec])
  | succ fuel ih =>
    intro b m lim t b2 m2 hm h
    rw [count_rec] at h
    by_cases he : anyEmpty b
    · rw [if_pos he] at h
      cases hfb : find_best_cell b m with
      | none =>
        rw [hfb] at h
        obtain ⟨-, rfl, rfl⟩ := Prod.mk.injEq .. ▸ (Option.some_injective _ h)
        exact ⟨rfl, rfl⟩
      | some ch =>
        rw [hfb] at h
        obtain ⟨hch0, hchc, -⟩ := find_best_cell_some b m ch hfb
        refine countLoop_state _ (fun b1 m1 l1 t1 b3 m3 hm1 hcall =>
          ih b1 m1 l1 t1 b3 m3 hm1 hcall) ch.r ch.c (candVals ch.cand) b m lim 0
          hch0 hm ?_ t b2 m2 h
        intro v hv
        rw [hchc] at hv
        exact candVal_fresh m ch.r ch.c v hv
    · rw [if_neg he] at h
      obtain ⟨-, rfl, rfl⟩ := Prod.mk.injEq .. ▸ (Option.some_injective _ h)
      exact ⟨rfl, rfl⟩

theorem solveLoop_state (rec : Board → Masks → Option (Bool × Board × Masks))
    (hrec : ∀ b1 m1 b2 m2, MasksU32 m1 → rec b1 m1 = some (false, b2, m2) →
      b2 = b1 ∧ m2 = m1)
    (r c : Fin 9) :
    ∀ (vs : List ℕ) (b : Board) (m : Masks),
    b r c = 0 → MasksU32 m →
    (∀ v ∈ vs, 1 ≤ v ∧ v ≤ 9 ∧ (m.row r).testBit (v - 1) = false ∧
      (m.col c).testBit (v - 1) = false ∧
      (m.box (box_index r c)).testBit (v - 1) = false) →
    ∀ b2 m2, solveLoop rec r c vs b m = some (false, b2, m2) →
      b2 = b ∧ m2 = m := by
  intro vs
  induction vs with
  | nil =>
    intro b m h0 hm hvs b2 m2 h
    rw [solveLoop] at h
    obtain ⟨-, rfl, rfl⟩ := Prod.mk.injEq .. ▸ (Option.some_injective _ h)
    exact ⟨rfl, rfl⟩
  | cons v rest ih =>
    intro b m h0 hm hvs b2 m2 h
    obtain ⟨hv1, hv9, hr, hc, hb⟩ := hvs v (List.mem_cons_self _ _)
    rw [solveLoop] at h
    cases hcall : rec (apply_set b m r c v).1 (apply_set b m r c v).2 with
    | none => rw [hcall] at h; exact absurd h (by simp)
    | some res =>
      obtain ⟨flag, b1, m1⟩ := res
      rw [hcall] at h
      cases flag with
      | true => exact absurd h (by simp)
      | false =>
        obtain ⟨rfl, rfl⟩ := hrec _ _ _ _ (masksU32_apply_set b m r c v hv9 hm) hcall
        dsimp only at h
        rw [set_clear_roundtrip b m r c v h0 hv1 hv9 hm hr hc hb] at h
        dsimp only at h
        exact ih b m h0 hm (fun w hw => hvs w (List.mem_cons_of_mem _ hw)) b2 m2 h

theorem solve_rec_state :
    ∀ (fuel : ℕ) (b : Board) (m : Masks) (b2 : Board) (m2 : Masks),
    MasksU32 m → solve_rec fuel b m = some (false, b2, m2) → b2 = b ∧ m2 = m := by
  intro fuel
  induction fuel with
  | zero => intro b m b2 m2 hm h; exact absurd h (by simp [solve_rec])
  | succ fuel ih =>
    intro b m b2 m2 hm h
    rw [solve_rec] at h
    by_cases he : anyEmpty b
    · rw [if_pos he] at h
      cases hfb : find_best_cell b m with
      | none =>
        rw [hfb] at h
        obtain ⟨-, rfl, rfl⟩ := Prod.mk.injEq .. ▸ (Option.some_injective _ h)
        exact ⟨rfl, rfl⟩
      | some ch =>
        rw [hfb] at h
        obtain ⟨hch0, hchc, -⟩ := find_best_cell_some b m ch hfb
        refine solveLoop_state _ (fun b1 m1 b3 m3 hm1 hcall =>
          ih b1 m1 b3 m3 hm1 hcall) ch.r ch.c (candVals ch.cand) b m hch0 hm ?_ b2 m2 h
        intro v hv
        rw [hchc] at hv
        exact candVal_fresh m ch.r ch.c v hv
    · rw [if_neg he] at h
      exact absurd h (by simp)

/-! Termination: the empty-cell count bounds the recursion depth. -/

theorem emptyCount_le_81 (b : Board) : emptyCount b ≤ 81 := by
  unfold emptyCount
  calc (Finset.univ.filter fun p : Fin 9 × Fin 9 => b p.1 p.2 = 0).card
      ≤ (Finset.univ : Finset (Fin 9 × Fin 9)).card := Finset.card_filter_le _ _
    _ = 81 := by simp

theorem emptyCount_update_lt (b : Board) (r c : Fin 9) (v : ℕ)
    (h0 : b r c = 0) (hv : v ≠ 0) :
    emptyCount (updateCell b r c v) < emptyCount b := by
  unfold emptyCount
  apply Finset.card_lt_card
  constructor
  · intro p hp
    simp only [Finset.mem_filter, Finset.mem_univ, true_and] at hp ⊢
    by_cases hpc : p.1 = r ∧ p.2 = c
    · exfalso
      rw [show updateCell b r c v p.1 p.2 = v by simp [updateCell, hpc]] at hp
      exact hv hp
    · rwa [show updateCell b r c v p.1 p.2 = b p.1 p.2 by simp [updateCell, hpc]] at hp
  · intro hsub
    have h1 := hsub (Finset.mem_filter.mpr ⟨Finset.mem_univ ((r, c) : Fin 9 × Fin 9), h0⟩)
    simp only [Finset.mem_filter, Finset.mem_univ, true_and] at h1
    rw [show updateCell b r c v (r, c).1 (r, c).2 = v by simp [updateCell]] at h1
    exact hv h1

theorem apply_set_fst (b : Board) (m : Masks) (r c : Fin 9) (v : ℕ) :
    (apply_set b m r c v).1 = updateCell b r c v := rfl

theorem candVal_pos (cand v : ℕ) (hv : v ∈ candVals cand) : v ≠ 0 := by
  obtain ⟨d, -, -, rfl⟩ := (candVals_mem cand v).mp hv
  omega

theorem countLoop_total (rec : Board → Masks → ℕ → Option (ℕ × Board × Masks))
    (hstate : ∀ b1 m1 l1 t b2 m2, MasksU32 m1 → rec b1 m1 l1 = some (t, b2, m2) →
      b2 = b1 ∧ m2 = m1)
    (r c : Fin 9) (N : ℕ)
    (htot : ∀ b1 m1 l1, MasksU32 m1 → emptyCount b1 < N → (rec b1 m1 l1).isSome) :
    ∀ (vs : List ℕ) (b : Board) (m : Masks) (lim total : ℕ),
    b r c = 0 → MasksU32 m →
    (∀ v ∈ vs, 1 ≤ v ∧ v ≤ 9 ∧ (m.row r).testBit (v - 1) = false ∧
      (m.col c).testBit (v - 1) = false ∧
      (m.box (box_index r c)).testBit (v - 1) = false) →
    emptyCount b ≤ N →
    (countLoop rec r c vs b m lim total).isSome := by
  intro vs
  induction vs with
  | nil =>
    intro b m lim total h0 hm hvs hN
    rw [countLoop]
    simp
  | cons v rest ih =>
    intro b m lim total h0 hm hvs hN
    obtain ⟨hv1, hv9, hr, hc, hb⟩ := hvs v (List.mem_cons_self _ _)
    rw [countLoop]
    have hmset : MasksU32 (apply_set b m r c v).2 := masksU32_apply_set b m r c v hv9 hm
    have hlt : emptyCount (apply_set b m r c v).1 < N := by
      rw [apply_set_fst]
      exact lt_of_lt_of_le (emptyCount_update_lt b r c v h0 (by omega)) hN
    have hsome := htot (apply_set b m r c v).1 (apply_set b m r c v).2 (lim - total)
      hmset hlt
    cases hcall : rec (apply_set b m r c v).1 (apply_set b m r c v).2 (lim - total) with
    | none => rw [hcall] at hsome; exact absurd hsome (by simp)
    | some res =>
      obtain ⟨t1, b1, m1⟩ := res
      obtain ⟨rfl, rfl⟩ := hstate _ _ _ _ _ _ hmset hcall
      dsimp only
      rw [set_clear_roundtrip b m r c v h0 hv1 hv9 hm hr hc hb]
      dsimp only
      by_cases hl : lim ≤ total + t1
      · rw [if_pos hl]; simp
      · rw [if_neg hl]
        exact ih b m lim (total + t1) h0 hm
          (fun w hw => hvs w (List.mem_cons_of_mem _ hw)) hN

theorem count_rec_total :
    ∀ (fuel : ℕ) (b : Board) (m : Masks) (lim : ℕ),
    MasksU32 m → emptyCount b < fuel → (count_rec fuel b m lim).isSome := by
  intro fuel
  induction fuel with
  | zero => intro b m lim hm hf; omega
  | succ fuel ih =>
    intro b m lim hm hf
    rw [count_rec]
    by_cases he : anyEmpty b
    · rw [if_pos he]
      cases hfb : find_best_cell b m with
      | none => simp
      | some ch =>
        obtain ⟨hch0, hchc, -⟩ := find_best_cell_some b m ch hfb
        refine countLoop_total _ (fun b1 m1 l1 t b2 m2 hm1 hcall =>
          count_rec_state fuel b1 m1 l1 t b2 m2 hm1 hcall) ch.r ch.c fuel
          (fun b1 m1 l1 hm1 hlt => ih b1 m1 l1 hm1 hlt)
          (candVals ch.cand) b m lim 0 hch0 hm ?_ (by omega)
        intro v hv
        rw [hchc] at hv
        exact candVal_fresh m ch.r ch.c v hv
    · rw [if_neg he]; simp

theorem solveLoop_total (rec : Board → Masks → Option (Bool × Board × Masks))
    (hstate : ∀ b1 m1 b2 m2, MasksU32 m1 → rec b1 m1 = some (false, b2, m2) →
      b2 = b1 ∧ m2 = m1)
    (r c : Fin 9) (N : ℕ)
    (htot : ∀ b1 m1, MasksU32 m1 → emptyCount b1 < N → (rec b1 m1).isSome) :
    ∀ (vs : List ℕ) (b : Board) (m : Masks),
    b r c = 0 → MasksU32 m →
    (∀ v ∈ vs, 1 ≤ v ∧ v ≤ 9 ∧ (m.row r).testBit (v - 1) = false ∧
      (m.col c).testBit (v - 1) = false ∧
      (m.box (box_index r c)).testBit (v - 1) = false) →
    emptyCount b ≤ N →
    (solveLoop rec r c vs b m).isSome := by
  intro vs
  induction vs with
  | nil =>
    intro b m h0 hm hvs hN
    rw [solveLoop]
    simp
  | cons v rest ih =>
    intro b m h0 hm hvs hN
    obtain ⟨hv1, hv9, hr, hc, hb⟩ := hvs v (List.mem_cons_self _ _)
    rw [solveLoop]
    have hmset : MasksU32 (apply_set b m r c v).2 := masksU32_apply_set b m r c v hv9 hm
    have hlt : emptyCount (apply_set b m r c v).1 < N := by
      rw [apply_set_fst]
      exact lt_of_lt_of_le (emptyCount_update_lt b r c v h0 (by omega)) hN
    have hsome := htot (apply_set b m r c v).1 (apply_set b m r c v).2 hmset hlt
    cases hcall : rec (apply_set b m r c v).1 (apply_set b m r c v).2 with
    | none => rw [hcall] at hsome; exact absurd hsome (by simp)
    | some res =>
      obtain ⟨flag, b1, m1⟩ := res
      cases flag with
      | true => simp
      | false =>
        obtain ⟨rfl, rfl⟩ := hstate _ _ _ _ hmset hcall
        dsimp only
        rw [set_clear_roundtrip b m r c v h0 hv1 hv9 hm hr hc hb]
        dsimp only
        exact ih b m h0 hm (fun w hw => hvs w (List.mem_cons_of_mem _ hw)) hN

theorem solve_rec_total :
    ∀ (fuel : ℕ) (b : Board) (m : Masks),
    MasksU32 m → emptyCount b < fuel → (solve_rec fuel b m).isSome := by
  intro fuel
  induction fuel with
  | zero => intro b m hm hf; omega
  | succ fuel ih =>
    intro b m hm hf
    rw [solve_rec]
    by_cases he : anyEmpty b
    · rw [if_pos he]
      cases hfb : find_best_cell b m with
      | none => simp
      | some ch =>
        obtain ⟨hch0, hchc, -⟩ := find_best_cell_some b m ch hfb
        refine solveLoop_total _ (fun b1 m1 b2 m2 hm1 hcall =>
          solve_rec_state fuel b1 m1 b2 m2 hm1 hcall) ch.r ch.c fuel
          (fun b1 m1 hm1 hlt => ih b1 m1 hm1 hlt)
          (candVals ch.cand) b m hch0 hm ?_ (by omega)
        intro v hv
        rw [hchc] at hv
        exact candVal_fresh m ch.r ch.c v hv
    · rw [if_neg he]; simp

/-! Preservation of the consistency invariant by apply_set and apply_clear. -/

theorem apply_set_board_eq (b : Board) (m : Masks) (r c i j : Fin 9) (v : ℕ)
    (h : ¬(i = r ∧ j = c)) : (apply_set b m r c v).1 i j = b i j :=
  updateCell_other b r c v i j h

theorem consistent_apply_set (b : Board) (m : Masks) (r c : Fin 9) (v : ℕ)
    (hcons : Consistent b m) (h0 : b r c = 0) (hv1 : 1 ≤ v) :
    Consistent (apply_set b m r c v).1 (apply_set b m r c v).2 := by
  intro i d
  refine ⟨?_, ?_, ?_⟩
  · show (Function.update m.row r (m.row r ||| 1 <<< (v - 1)) i).testBit d ↔ _
    by_cases hi : i = r
    · subst hi
      rw [Function.update_same, Nat.testBit_lor, testBit_one_shiftLeft,
        Bool.or_eq_true, decide_eq_true_eq]
      constructor
      · rintro (h2 | h2)
        · obtain ⟨j, hj⟩ := ((hcons i d).1).mp h2
          have hjc : ¬(i = i ∧ j = c) := by
            rintro ⟨-, rfl⟩
            rw [h0] at hj
            omega
          exact ⟨j, by rw [apply_set_board_eq b m i c i j v hjc]; exact hj⟩
        · exact ⟨c, by
            rw [show (apply_set b m i c v).1 i c = v from updateCell_same b i c v]
            omega⟩
      · rintro ⟨j, hj⟩
        by_cases hjc : j = c
        · subst hjc
          rw [show (apply_set b m i j v).1 i j = v from updateCell_same b i j v] at hj
          right
          omega
        · rw [apply_set_board_eq b m i c i j v (by rintro ⟨-, rfl⟩; exact hjc rfl)] at hj
          exact Or.inl (((hcons i d).1).mpr ⟨j, hj⟩)
    · rw [Function.update_noteq hi]
      have hbeq : ∀ j : Fin 9, (apply_set b m r c v).1 i j = b i j := fun j =>
        apply_set_board_eq b m r c i j v (by rintro ⟨rfl, -⟩; exact hi rfl)
      simp only [hbeq]
      exact (hcons i d).1
  · show (Function.update m.col c (m.col c ||| 1 <<< (v - 1)) i).testBit d ↔ _
    by_cases hi : i = c
    · subst hi
      rw [Function.update_same, Nat.testBit_lor, testBit_one_shiftLeft,
        Bool.or_eq_true, decide_eq_true_eq]
      constructor
      · rintro (h2 | h2)
        · obtain ⟨j, hj⟩ := ((hcons i d).2.1).mp h2
          have hjr : ¬(j = r ∧ i = i) := by
            rintro ⟨rfl, -⟩
            rw [h0] at hj
            omega
          exact ⟨j, by rw [apply_set_board_eq b m r i j i v hjr]; exact hj⟩
        · exact ⟨r, by
            rw [show (apply_set b m r i v).1 r i = v from updateCell_same b r i v]
            omega⟩
      · rintro ⟨j, hj⟩
        by_cases hjr : j = r
        · subst hjr
          rw [show (apply_set b m j i v).1 j i = v from updateCell_same b j i v] at hj
          right
          omega
        · rw [apply_set_board_eq b m r i j i v (by rintro ⟨rfl, -⟩; exact hjr rfl)] at hj
          exact Or.inl (((hcons i d).2.1).mpr ⟨j, hj⟩)
    · rw [Function.update_noteq hi]
      have hbeq : ∀ j : Fin 9, (apply_set b m r c v).1 j i = b j i := fun j =>
        apply_set_board_eq b m r c j i v (by rintro ⟨-, rfl⟩; exact hi rfl)
      simp only [hbeq]
      exact (hcons i d).2.1
  · show (Function.update m.box (box_index r c)
      (m.box (box_index r c) ||| 1 <<< (v - 1)) i).testBit d ↔ _
    by_cases hi : i = box_index r c
    · subst hi
      rw [Function.update_same, Nat.testBit_lor, testBit_one_shiftLeft,
        Bool.or_eq_true, decide_eq_true_eq]
      constructor
      · rintro (h2 | h2)
        · obtain ⟨r2, c2, hb2, hv2⟩ := ((hcons (box_index r c) d).2.2).mp h2
          have hne : ¬(r2 = r ∧ c2 = c) := by
            rintro ⟨rfl, rfl⟩
            rw [h0] at hv2
            omega
          exact ⟨r2, c2, hb2, by rw [apply_set_board_eq b m r c r2 c2 v hne]; exact hv2⟩
        · exact ⟨r, c, rfl, by
            rw [show (apply_set b m r c v).1 r c = v from updateCell_same b r c v]
            omega⟩
      · rintro ⟨r2, c2, hb2, hv2⟩
        by_cases hne : r2 = r ∧ c2 = c
        · obtain ⟨rfl, rfl⟩ := hne
          rw [show (apply_set b m r2 c2 v).1 r2 c2 = v from updateCell_same b r2 c2 v] at hv2
          right
          omega
        · rw [apply_set_board_eq b m r c r2 c2 v hne] at hv2
          exact Or.inl (((hcons (box_index r c) d).2.2).mpr ⟨r2, c2, hb2, hv2⟩)
    · rw [Function.update_noteq hi]
      constructor
      · intro h
        obtain ⟨r2, c2, hb2, hv2⟩ := ((hcons i d).2.2).mp h
        have hne : ¬(r2 = r ∧ c2 = c) := by
          rintro ⟨rfl, rfl⟩
          exact hi hb2.symm
        exact ⟨r2, c2, hb2, by rw [apply_set_board_eq b m r c r2 c2 v hne]; exact hv2⟩
      · rintro ⟨r2, c2, hb2, hv2⟩
        have hne : ¬(r2 = r ∧ c2 = c) := by
          rintro ⟨rfl, rfl⟩
          exact hi hb2.symm
        rw [apply_set_board_eq b m r c r2 c2 v hne] at hv2
        exact ((hcons i d).2.2).mpr ⟨r2, c2, hb2, hv2⟩

theorem land_notU32_testBit_lt (x k d : ℕ) (hd : d < 32) :
    (x &&& notU32 (1 <<< k)).testBit d = (x.testBit d && !(decide (d = k))) := by
  simp only [notU32, Nat.testBit_land, Nat.testBit_xor, testBit_one_shiftLeft]
  rw [show (4294967295 : ℕ) = 2 ^ 32 - 1 from rfl, Nat.testBit_two_pow_sub_one]
  by_cases hdk : d = k
  · subst hdk; simp [hd]
  · have hkd : ¬k = d := fun h => hdk h.symm
    simp [hd, hdk, hkd]

theorem land_notU32_testBit_ge (x k d : ℕ) (hk : k < 32) (hd : 32 ≤ d) :
    (x &&& notU32 (1 <<< k)).testBit d = false := by
  simp only [notU32, Nat.testBit_land, Nat.testBit_xor, testBit_one_shiftLeft]
  rw [show (4294967295 : ℕ) = 2 ^ 32 - 1 from rfl, Nat.testBit_two_pow_sub_one]
  have h1 : ¬(d < 32) := by omega
  have h2 : k ≠ d := by omega
  simp [h1, h2]

theorem apply_clear_board_eq (b : Board) (m : Masks) (r c i j : Fin 9)
    (hne : ¬(i = r ∧ j = c)) : (apply_clear b m r c).1 i j = b i j := by
  unfold apply_clear
  by_cases h0 : b r c = 0
  · rw [if_pos h0]
  · rw [if_neg h0]
    exact updateCell_other b r c 0 i j hne

theorem consistent_apply_clear (b : Board) (m : Masks) (r c : Fin 9)
    (hcons : Consistent b m) (hL : Legal b) (hwf : WellFormed b) :
    Consistent (apply_clear b m r c).1 (apply_clear b m r c).2 := by
  by_cases h0 : b r c = 0
  · unfold apply_clear
    rw [if_pos h0]
    exact hcons
  · have hv1 : 1 ≤ b r c := by omega
    have hv9 : b r c ≤ 9 := hwf r c
    have hk32 : b r c - 1 < 32 := by omega
    have hb' : ∀ i j : Fin 9, (apply_clear b m r c).1 i j =
        if i = r ∧ j = c then 0 else b i j := by
      intro i j
      unfold apply_clear
      rw [if_neg h0]
      rfl
    have hbwf : ∀ i j : Fin 9, (apply_clear b m r c).1 i j ≤ 9 := by
      intro i j
      rw [hb' i j]
      by_cases hij : i = r ∧ j = c
      · rw [if_pos hij]; omega
      · rw [if_neg hij]; exact hwf i j
    have hmrow : (apply_clear b m r c).2.row =
        Function.update m.row r (m.row r &&& notU32 (1 <<< (b r c - 1))) := by
      unfold apply_clear
      rw [if_neg h0]
    have hmcol : (apply_clear b m r c).2.col =
        Function.update m.col c (m.col c &&& notU32 (1 <<< (b r c - 1))) := by
      unfold apply_clear
      rw [if_neg h0]
    have hmbox : (apply_clear b m r c).2.box =
        Function.update m.box (box_index r c)
          (m.box (box_index r c) &&& notU32 (1 <<< (b r c - 1))) := by
      unfold apply_clear
      rw [if_neg h0]
    intro i d
    by_cases hd32 : d < 32
    case neg =>
      have hnone : ∀ (i2 j2 : Fin 9), (apply_clear b m r c).1 i2 j2 ≠ d + 1 := by
        intro i2 j2 h
        have := hbwf i2 j2
        omega
      refine ⟨?_, ?_, ?_⟩
      · rw [hmrow]
        constructor
        · intro h
          exfalso
          by_cases hi : i = r
          · subst hi
            rw [Function.update_same, land_notU32_testBit_ge _ _ _ hk32 (by omega)] at h
            exact Bool.false_ne_true h
          · rw [Function.update_noteq hi] at h
            obtain ⟨j, hj⟩ := ((hcons i d).1).mp h
            have := hwf i j
            omega
        · rintro ⟨j, hj⟩
          exact absurd hj (hnone i j)
      · rw [hmcol]
        constructor
        · intro h
          exfalso
          by_cases hi : i = c
          · subst hi
            rw [Function.update_same, land_notU32_testBit_ge _ _ _ hk32 (by omega)] at h
            exact Bool.false_ne_true h
          · rw [Function.update_noteq hi] at h
            obtain ⟨j, hj⟩ := ((hcons i d).2.1).mp h
            have := hwf j i
            omega
        · rintro ⟨j, hj⟩
          exact absurd hj (hnone j i)
      · rw [hmbox]
        constructor
        · intro h
          exfalso
          by_cases hi : i = box_index r c
          · subst hi
            rw [Function.update_same, land_notU32_testBit_ge _ _ _ hk32 (by omega)] at h
            exact Bool.false_ne_true h
          · rw [Function.update_noteq hi] at h
            obtain ⟨r2, c2, -, hj⟩ := ((hcons i d).2.2).mp h
            have := hwf r2 c2
            omega
        · rintro ⟨r2, c2, -, hj⟩
          exact absurd hj (hnone r2 c2)
    case pos =>
      refine ⟨?_, ?_, ?_⟩
      · rw [hmrow]
        by_cases hi : i = r
        · subst hi
          rw [Function.update_same, land_notU32_testBit_lt _ _ _ hd32]
          by_cases hdk : d = b i c - 1
          · have hveq : b i c = d + 1 := by omega
            simp only [hdk, decide_True, Bool.not_true, Bool.and_false]
            constructor
            · intro h; exact absurd h (by simp)
            · rintro ⟨j, hj⟩
              rw [hb' i j] at hj
              by_cases hjc : i = i ∧ j = c
              · rw [if_pos hjc] at hj; omega
              · rw [if_neg hjc] at hj
                have hjc2 : j ≠ c := fun h => hjc ⟨rfl, h⟩
                have := (hL.1 i c j (fun h => hjc2 h.symm) (by omega))
                omega
          · rw [show (decide (d = b i c - 1)) = false by simp [hdk]]
            simp only [Bool.not_false, Bool.and_true]
            rw [(hcons i d).1]
            constructor
            · rintro ⟨j, hj⟩
              refine ⟨j, ?_⟩
              rw [hb' i j]
              have hjc : ¬(i = i ∧ j = c) := by
                rintro ⟨-, rfl⟩
                omega
              rw [if_neg hjc]
              exact hj
            · rintro ⟨j, hj⟩
              rw [hb' i j] at hj
              by_cases hjc : i = i ∧ j = c
              · rw [if_pos hjc] at hj; omega
              · rw [if_neg hjc] at hj; exact ⟨j, hj⟩
        · rw [Function.update_noteq hi]
          have hbeq : ∀ j : Fin 9, (apply_clear b m r c).1 i j = b i j := by
            intro j
            rw [hb' i j, if_neg (by rintro ⟨rfl, -⟩; exact hi rfl)]
          simp only [hbeq]
          exact (hcons i d).1
      · rw [hmcol]
        by_cases hi : i = c
        · subst hi
          rw [Function.update_same, land_notU32_testBit_lt _ _ _ hd32]
          by_cases hdk : d = b r i - 1
          · have hveq : b r i = d + 1 := by omega
            simp only [hdk, decide_True, Bool.not_true, Bool.and_false]
            constructor
            · intro h; exact absurd h (by simp)
            · rintro ⟨j, hj⟩
              rw [hb' j i] at hj
              by_cases hjr : j = r ∧ i = i
              · rw [if_pos hjr] at hj; omega
              · rw [if_neg hjr] at hj
                have hjr2 : j ≠ r := fun h => hjr ⟨h, rfl⟩
                have := (hL.2.1 i r j (fun h => hjr2 h.symm) (by omega))
                omega
          · rw [show (decide (d = b r i - 1)) = false by simp [hdk]]
            simp only [Bool.not_false, Bool.and_true]
            rw [(hcons i d).2.1]
            constructor
            · rintro ⟨j, hj⟩
              refine ⟨j, ?_⟩
              rw [hb' j i]
              have hjr : ¬(j = r ∧ i = i) := by
                rintro ⟨rfl, -⟩
                omega
              rw [if_neg hjr]
              exact hj
            · rintro ⟨j, hj⟩
              rw [hb' j i] at hj
              by_cases hjr : j = r ∧ i = i
              · rw [if_pos hjr] at hj; omega
              · rw [if_neg hjr] at hj; exact ⟨j, hj⟩
        · rw [Function.update_noteq hi]
          have hbeq : ∀ j : Fin 9, (apply_clear b m r c).1 j i = b j i := by
            intro j
            rw [hb' j i, if_neg (by rintro ⟨-, rfl⟩; exact hi rfl)]
          simp only [hbeq]
          exact (hcons i d).2.1
      · rw [hmbox]
        by_cases hi : i = box_index r c
        · subst hi
          rw [Function.update_same, land_notU32_testBit_lt _ _ _ hd32]
          by_cases hdk : d = b r c - 1
          · have hveq : b r c = d + 1 := by omega
            simp only [hdk, decide_True, Bool.not_true, Bool.and_false]
            constructor
            · intro h; exact absurd h (by simp)
            · rintro ⟨r2, c2, hbx, hj⟩
              rw [hb' r2 c2] at hj
              by_cases hne : r2 = r ∧ c2 = c
              · rw [if_pos hne] at hj; omega
              · rw [if_neg hne] at hj
                have := hL.2.2 r c r2 c2 hbx.symm
                  (fun h => hne ⟨(Prod.mk.injEq .. ▸ h.symm).1, (Prod.mk.injEq .. ▸ h.symm).2⟩)
                  (by omega)
                omega
          · rw [show (decide (d = b r c - 1)) = false by simp [hdk]]
            simp only [Bool.not_false, Bool.and_true]
            rw [(hcons (box_index r c) d).2.2]
            constructor
            · rintro ⟨r2, c2, hbx, hj⟩
              refine ⟨r2, c2, hbx, ?_⟩
              rw [hb' r2 c2]
              have hne : ¬(r2 = r ∧ c2 = c) := by
                rintro ⟨rfl, rfl⟩
                omega
              rw [if_neg hne]
              exact hj
            · rintro ⟨r2, c2, hbx, hj⟩
              rw [hb' r2 c2] at hj
              by_cases hne : r2 = r ∧ c2 = c
              · rw [if_pos hne] at hj; omega
              · rw [if_neg hne] at hj; exact ⟨r2, c2, hbx, hj⟩
        · rw [Function.update_noteq hi]
          constructor
          · intro h
            obtain ⟨r2, c2, hbx, hj⟩ := ((hcons i d).2.2).mp h
            refine ⟨r2, c2, hbx, ?_⟩
            rw [hb' r2 c2, if_neg (by rintro ⟨rfl, rfl⟩; exact hi hbx.symm)]
            exact hj
          · rintro ⟨r2, c2, hbx, hj⟩
            rw [hb' r2 c2, if_neg (by rintro ⟨rfl, rfl⟩; exact hi hbx.symm)] at hj
            exact ((hcons i d).2.2).mpr ⟨r2, c2, hbx, hj⟩

/-! Legality is preserved when a candidate digit is placed in an empty cell. -/

theorem wf_updateCell (b : Board) (r c : Fin 9) (v : ℕ)
    (hwf : WellFormed b) (hv : v ≤ 9) : WellFormed (updateCell b r c v) := by
  intro i j
  by_cases hij : i = r ∧ j = c
  · rw [show updateCell b r c v i j = v by simp [updateCell, hij]]; exact hv
  · rw [updateCell_other _ _ _ _ _ _ hij]; exact hwf i j

theorem legal_place (b : Board) (r c : Fin 9) (v : ℕ) (hL : Legal b) (h0 : b r c = 0)
    (hv1 : 1 ≤ v)
    (hrow : ∀ j, b r j ≠ v) (hcol : ∀ i, b i c ≠ v)
    (hbox : ∀ i j, box_index i j = box_index r c → b i j ≠ v) :
    Legal (updateCell b r c v) := by
  obtain ⟨hR, hC, hB⟩ := hL
  refine ⟨?_, ?_, ?_⟩
  · intro r1 c1 c2 hne hnz
    show updateCell b r c v r1 c1 ≠ updateCell b r c v r1 c2
    by_cases h1 : r1 = r ∧ c1 = c <;> by_cases h2 : r1 = r ∧ c2 = c
    · exact absurd (h1.2.trans h2.2.symm) hne
    · rw [show updateCell b r c v r1 c1 = v by simp [updateCell, h1],
         updateCell_other _ _ _ _ _ _ h2]
      intro hEq
      apply hrow c2
      rw [← h1.1]
      exact hEq.symm
    · rw [updateCell_other _ _ _ _ _ _ h1,
         show updateCell b r c v r1 c2 = v by simp [updateCell, h2]]
      rw [show updateCell b r c v r1 c1 = b r1 c1 from
        updateCell_other _ _ _ _ _ _ h1] at hnz
      intro hEq
      apply hrow c1
      rw [← h2.1]
      exact hEq
    · rw [updateCell_other _ _ _ _ _ _ h1, updateCell_other _ _ _ _ _ _ h2]
      rw [show updateCell b r c v r1 c1 = b r1 c1 from
        updateCell_other _ _ _ _ _ _ h1] at hnz
      exact hR r1 c1 c2 hne hnz
  · intro c0 r1 r2 hne hnz
    show updateCell b r c v r1 c0 ≠ updateCell b r c v r2 c0
    by_cases h1 : r1 = r ∧ c0 = c <;> by_cases h2 : r2 = r ∧ c0 = c
    · exact absurd (h1.1.trans h2.1.symm) hne
    · rw [show updateCell b r c v r1 c0 = v by simp [updateCell, h1],
         updateCell_other _ _ _ _ _ _ h2]
      intro hEq
      apply hcol r2
      rw [← h1.2]
      exact hEq.symm
    · rw [updateCell_other _ _ _ _ _ _ h1,
         show updateCell b r c v r2 c0 = v by simp [updateCell, h2]]
      rw [show updateCell b r c v r1 c0 = b r1 c0 from
        updateCell_other _ _ _ _ _ _ h1] at hnz
      intro hEq
      apply hcol r1
      rw [← h2.2]
      exact hEq
    · rw [updateCell_other _ _ _ _ _ _ h1, updateCell_other _ _ _ _ _ _ h2]
      rw [show updateCell b r c v r1 c0 = b r1 c0 from
        updateCell_other _ _ _ _ _ _ h1] at hnz
      exact hC c0 r1 r2 hne hnz
  · intro r1 c1 r2 c2 hbx hne hnz
    show updateCell b r c v r1 c1 ≠ updateCell b r c v r2 c2
    by_cases h1 : r1 = r ∧ c1 = c <;> by_cases h2 : r2 = r ∧ c2 = c
    · exact absurd (by rw [h1.1, h1.2, h2.1, h2.2]) hne
    · rw [show updateCell b r c v r1 c1 = v by simp [updateCell, h1],
         updateCell_other _ _ _ _ _ _ h2]
      intro hEq
      apply hbox r2 c2
      · rw [← hbx, h1.1, h1.2]
      · exact hEq.symm
    · rw [updateCell_other _ _ _ _ _ _ h1,
         show updateCell b r c v r2 c2 = v by simp [updateCell, h2]]
      rw [show updateCell b r c v r1 c1 = b r1 c1 from
        updateCell_other _ _ _ _ _ _ h1] at hnz
      intro hEq
      apply hbox r1 c1
      · rw [hbx, h2.1, h2.2]
      · exact hEq
    · rw [updateCell_other _ _ _ _ _ _ h1, updateCell_other _ _ _ _ _ _ h2]
      rw [show updateCell b r c v r1 c1 = b r1 c1 from
        updateCell_other _ _ _ _ _ _ h1] at hnz
      exact hB r1 c1 r2 c2 hbx hne hnz

theorem consistent_not_occ_row (b : Board) (m : Masks) (r : Fin 9) (d : ℕ)
    (hcons : Consistent b m) (h : (m.row r).testBit d = false) :
    ∀ j, b r j ≠ d + 1 := by
  intro j hj
  have h1 := ((hcons r d).1).mpr ⟨j, hj⟩
  rw [h] at h1
  exact Bool.false_ne_true h1

theorem consistent_not_occ_col (b : Board) (m : Masks) (c : Fin 9) (d : ℕ)
    (hcons : Consistent b m) (h : (m.col c).testBit d = false) :
    ∀ i, b i c ≠ d + 1 := by
  intro i hi
  have h1 := ((hcons c d).2.1).mpr ⟨i, hi⟩
  rw [h] at h1
  exact Bool.false_ne_true h1

theorem consistent_not_occ_box (b : Board) (m : Masks) (k : Fin 9) (d : ℕ)
    (hcons : Consistent b m) (h : (m.box k).testBit d = false) :
    ∀ i j, box_index i j = k → b i j ≠ d + 1 := by
  intro i j hk hij
  have h1 := ((hcons k d).2.2).mpr ⟨i, j, hk, hij⟩
  rw [h] at h1
  exact Bool.false_ne_true h1

theorem legal_apply_set_cand (b : Board) (m : Masks) (r c : Fin 9) (v : ℕ)
    (hL : Legal b) (hcons : Consistent b m) (h0 : b r c = 0)
    (hv : v ∈ candVals (candidates_mask m r c)) :
    Legal (apply_set b m r c v).1 := by
  obtain ⟨hv1, hv9, hr, hc, hb⟩ := candVal_fresh m r c v hv
  have hvd : v - 1 + 1 = v := by omega
  apply legal_place b r c v hL h0 hv1
  · intro j
    have := consistent_not_occ_row b m r (v - 1) hcons hr j
    rwa [hvd] at this
  · intro i
    have := consistent_not_occ_col b m c (v - 1) hcons hc i
    rwa [hvd] at this
  · intro i j hk
    have := consistent_not_occ_box b m (box_index r c) (v - 1) hcons hb i j hk
    rwa [hvd] at this

/-! Completions. -/

theorem isCompletion_updateCell_iff (b : Board) (r c : Fin 9) (v : ℕ)
    (h0 : b r c = 0) (hv1 : 1 ≤ v) (e : Board) :
    IsCompletion (updateCell b r c v) e ↔ IsCompletion b e ∧ e r c = v := by
  unfold IsCompletion BExtends
  constructor
  · rintro ⟨hext, hrange, hLeg⟩
    have hco : e r c = v := by
      have := hext r c (by rw [updateCell_same]; omega)
      rwa [updateCell_same] at this
    refine ⟨⟨?_, hrange, hLeg⟩, hco⟩
    intro i j hij
    have hne : ¬(i = r ∧ j = c) := by
      rintro ⟨rfl, rfl⟩
      exact hij h0
    have := hext i j (by rwa [updateCell_other _ _ _ _ _ _ hne])
    rwa [updateCell_other _ _ _ _ _ _ hne] at this
  · rintro ⟨⟨hext, hrange, hLeg⟩, hco⟩
    refine ⟨?_, hrange, hLeg⟩
    intro i j hij
    by_cases hne : i = r ∧ j = c
    · rw [show updateCell b r c v i j = v by simp [updateCell, hne], hne.1, hne.2]
      exact hco
    · rw [updateCell_other _ _ _ _ _ _ hne] at hij ⊢
      exact hext i j hij

theorem completion_val_candidate (b : Board) (m : Masks) (r c : Fin 9) (e : Board)
    (hcons : Consistent b m) (h0 : b r c = 0) (hcomp : IsCompletion b e) :
    (candidates_mask m r c).testBit (e r c - 1) = true := by
  obtain ⟨hext, hrange, hLeg⟩ := hcomp
  obtain ⟨h1, h9⟩ := hrange r c
  rw [testBit_candidates]
  refine ⟨by omega, ?_⟩
  by_contra hb
  rw [Bool.not_eq_false] at hb
  unfold used_mask at hb
  rw [Nat.testBit_lor, Nat.testBit_lor, Bool.or_eq_true, Bool.or_eq_true] at hb
  have hd1 : e r c - 1 + 1 = e r c := by omega
  rcases hb with (hb | hb) | hb
  · obtain ⟨j, hj⟩ := ((hcons r (e r c - 1)).1).mp hb
    rw [hd1] at hj
    have hjc : j ≠ c := by
      intro h
      rw [h, h0] at hj
      omega
    have hej : e r j = e r c := by
      rw [hext r j (by omega)]
      exact hj
    exact hLeg.1 r c j (fun h => hjc h.symm) (by omega) hej.symm
  · obtain ⟨i, hi⟩ := ((hcons c (e r c - 1)).2.1).mp hb
    rw [hd1] at hi
    have hir : i ≠ r := by
      intro h
      rw [h, h0] at hi
      omega
    have hei : e i c = e r c := by
      rw [hext i c (by omega)]
      exact hi
    exact hLeg.2.1 c r i (fun h => hir h.symm) (by omega) hei.symm
  · obtain ⟨r2, c2, hk, hv2⟩ := ((hcons (box_index r c) (e r c - 1)).2.2).mp hb
    rw [hd1] at hv2
    have hne : (r, c) ≠ (r2, c2) := by
      intro h
      rw [show r2 = r from ((Prod.mk.injEq .. ▸ h).1).symm,
          show c2 = c from ((Prod.mk.injEq .. ▸ h).2).symm, h0] at hv2
      omega
    have he2 : e r2 c2 = e r c := by
      rw [hext r2 c2 (by omega)]
      exact hv2
    exact hLeg.2.2 r c r2 c2 hk.symm hne (by omega) he2.symm

theorem completion_val_mem (b : Board) (m : Masks) (r c : Fin 9) (e : Board)
    (hcons : Consistent b m) (h0 : b r c = 0) (hcomp : IsCompletion b e) :
    e r c ∈ candVals (candidates_mask m r c) := by
  have h1 := (hcomp.2.1 r c).1
  rw [candVals_mem]
  exact ⟨e r c - 1, by
    have := (testBit_candidates m r c (e r c - 1)).mp
      (completion_val_candidate b m r c e hcons h0 hcomp)
    omega, completion_val_candidate b m r c e hcons h0 hcomp, by omega⟩

theorem encodeF_pos (f : Fin 9 → Fin 9 → Fin 9) (r c : Fin 9) :
    1 ≤ encodeF f r c ∧ encodeF f r c ≤ 9 := by
  unfold encodeF
  have := (f r c).isLt
  omega

theorem candVals_nodup (cand : ℕ) : (candVals cand).Nodup := by
  unfold candVals
  apply List.Nodup.map
  · intro a b h
    simpa using h
  · exact List.Nodup.filter _ (List.nodup_range 9)

theorem numCompletions_complete (b : Board) (hF : Filled b) (hwf : WellFormed b)
    (hL : Legal b) : numCompletions b = 1 := by
  unfold numCompletions
  have hb : ∀ r c : Fin 9, b r c - 1 < 9 := by
    intro r c
    have := hwf r c
    have := hF r c
    omega
  rw [show (Finset.univ.filter fun f : Fin 9 → Fin 9 → Fin 9 =>
      IsCompletion b (encodeF f)) = {fun r c => ⟨b r c - 1, hb r c⟩} from ?_]
  · exact Finset.card_singleton _
  · rw [Finset.eq_singleton_iff_unique_mem]
    constructor
    · simp only [Finset.mem_filter, Finset.mem_univ, true_and]
      have hE : encodeF (fun r c => (⟨b r c - 1, hb r c⟩ : Fin 9)) = b := by
        funext r c
        show b r c - 1 + 1 = b r c
        have := hF r c
        omega
      rw [hE]
      exact ⟨fun i j _ => rfl, fun r c => ⟨by have := hF r c; omega, hwf r c⟩, hL⟩
    · intro g hg
      simp only [Finset.mem_filter, Finset.mem_univ, true_and] at hg
      funext r c
      apply Fin.ext
      show (g r c).val = b r c - 1
      have := hg.1 r c (hF r c)
      unfold encodeF at this
      omega

theorem numCompletions_dead (b : Board) (m : Masks) (r c : Fin 9)
    (hcons : Consistent b m) (h0 : b r c = 0)
    (hzero : candidates_mask m r c = 0) : numCompletions b = 0 := by
  unfold numCompletions
  rw [Finset.card_eq_zero, Finset.filter_eq_empty_iff]
  intro f _
  intro hf
  have := completion_val_candidate b m r c (encodeF f) hcons h0 hf
  rw [hzero, Nat.zero_testBit] at this
  exact Bool.false_ne_true this

theorem numCompletions_partition (b : Board) (m : Masks) (r c : Fin 9)
    (hcons : Consistent b m) (h0 : b r c = 0) :
    numCompletions b = ((candVals (candidates_mask m r c)).map
      (fun v => numCompletions (updateCell b r c v))).sum := by
  classical
  have hset : (Finset.univ.filter fun f : Fin 9 → Fin 9 → Fin 9 =>
      IsCompletion b (encodeF f))
      = (candVals (candidates_mask m r c)).toFinset.biUnion
          (fun v => Finset.univ.filter fun f : Fin 9 → Fin 9 → Fin 9 =>
            IsCompletion (updateCell b r c v) (encodeF f)) := by
    apply Finset.ext
    intro f
    simp only [Finset.mem_filter, Finset.mem_univ, true_and, Finset.mem_biUnion,
      List.mem_toFinset]
    constructor
    · intro hf
      refine ⟨encodeF f r c, completion_val_mem b m r c (encodeF f) hcons h0 hf, ?_⟩
      rw [isCompletion_updateCell_iff b r c _ h0 (encodeF_pos f r c).1 (encodeF f)]
      exact ⟨hf, rfl⟩
    · rintro ⟨v, hv, hf⟩
      have hv1 : 1 ≤ v := by
        obtain ⟨d, -, -, rfl⟩ := (candVals_mem _ v).mp hv
        omega
      exact ((isCompletion_updateCell_iff b r c v h0 hv1 (encodeF f)).mp hf).1
  unfold numCompletions
  rw [hset, Finset.card_biUnion, ← List.sum_toFinset _ (candVals_nodup _)]
  intro v hv w hw hvw
  rw [List.mem_toFinset] at hv hw
  have hv1 : 1 ≤ v := by
    obtain ⟨d, -, -, rfl⟩ := (candVals_mem _ v).mp hv
    omega
  have hw1 : 1 ≤ w := by
    obtain ⟨d, -, -, rfl⟩ := (candVals_mem _ w).mp hw
    omega
  rw [Finset.disjoint_left]
  intro f hf hg
  simp only [Finset.mem_filter, Finset.mem_univ, true_and] at hf hg
  have h1 := ((isCompletion_updateCell_iff b r c v h0 hv1 (encodeF f)).mp hf).2
  have h2 := ((isCompletion_updateCell_iff b r c w h0 hw1 (encodeF f)).mp hg).2
  exact hvw (h1.symm.trans h2)

/-! Exactness of bounded counting: with a positive limit, count_rec computes
min(true solution count, limit) and restores the state. -/

theorem countLoop_exact (rec : Board → Masks → ℕ → Option (ℕ × Board × Masks)) (N : ℕ)
    (hrec : ∀ b1 m1 l1, emptyCount b1 < N → WellFormed b1 → Legal b1 →
      Consistent b1 m1 → MasksU32 m1 → 1 ≤ l1 →
      rec b1 m1 l1 = some (min (numCompletions b1) l1, b1, m1))
    (r c : Fin 9) :
    ∀ (vs : List ℕ) (b : Board) (m : Masks) (lim total : ℕ),
    b r c = 0 → WellFormed b → Legal b → Consistent b m → MasksU32 m →
    emptyCount b ≤ N → total < lim →
    (∀ v ∈ vs, v ∈ candVals (candidates_mask m r c)) →
    countLoop rec r c vs b m lim total =
      some (min (total + ((vs.map fun v => numCompletions (updateCell b r c v)).sum))
        lim, b, m) := by
  intro vs
  induction vs with
  | nil =>
    intro b m lim total h0 hwf hL hcons hm hN htl hvs
    rw [countLoop]
    simp only [List.map_nil, List.sum_nil, Nat.add_zero]
    rw [Nat.min_eq_left (by omega)]
  | cons v rest ih =>
    intro b m lim total h0 hwf hL hcons hm hN htl hvs
    have hvm := hvs v (List.mem_cons_self _ _)
    obtain ⟨hv1, hv9, hr, hc, hb⟩ := candVal_fresh m r c v hvm
    have hwf1 : WellFormed (apply_set b m r c v).1 := wf_updateCell b r c v hwf hv9
    have hL1 : Legal (apply_set b m r c v).1 := legal_apply_set_cand b m r c v hL hcons h0 hvm
    have hcons1 := consistent_apply_set b m r c v hcons h0 hv1
    have hm1 := masksU32_apply_set b m r c v hv9 hm
    have hN1 : emptyCount (apply_set b m r c v).1 < N := by
      rw [apply_set_fst]
      exact lt_of_lt_of_le (emptyCount_update_lt b r c v h0 (by omega)) hN
    rw [countLoop,
      hrec (apply_set b m r c v).1 (apply_set b m r c v).2 (lim - total)
        hN1 hwf1 hL1 hcons1 hm1 (by omega)]
    dsimp only
    rw [set_clear_roundtrip b m r c v h0 hv1 hv9 hm hr hc hb]
    dsimp only
    rw [apply_set_fst]
    simp only [List.map_cons, List.sum_cons]
    rcases Nat.le_total (numCompletions (updateCell b r c v)) (lim - total) with hmin | hmin
    · rw [Nat.min_eq_left hmin]
      by_cases hl : lim ≤ total + numCompletions (updateCell b r c v)
      · rw [if_pos hl]
        have : total + numCompletions (updateCell b r c v) =
            min (total + (numCompletions (updateCell b r c v) +
              (rest.map fun w => numCompletions (updateCell b r c w)).sum)) lim := by
          omega
        rw [this]
      · rw [if_neg hl]
        rw [ih b m lim (total + numCompletions (updateCell b r c v)) h0 hwf hL hcons hm
          hN (by omega) (fun w hw => hvs w (List.mem_cons_of_mem _ hw))]
        have : total + numCompletions (updateCell b r c v) +
            (rest.map fun w => numCompletions (updateCell b r c w)).sum =
            total + (numCompletions (updateCell b r c v) +
              (rest.map fun w => numCompletions (updateCell b r c w)).sum) := by
          omega
        rw [this]
    · rw [Nat.min_eq_right hmin]
      have hl : lim ≤ total + (lim - total) := by omega
      rw [if_pos hl]
      have : total + (lim - total) =
          min (total + (numCompletions (updateCell b r c v) +
            (rest.map fun w => numCompletions (updateCell b r c w)).sum)) lim := by
        omega
      rw [this]

theorem count_rec_exact :
    ∀ (fuel : ℕ) (b : Board) (m : Masks) (lim : ℕ),
    emptyCount b < fuel → WellFormed b → Legal b → Consistent b m → MasksU32 m →
    1 ≤ lim → count_rec fuel b m lim = some (min (numCompletions b) lim, b, m) := by
  intro fuel
  induction fuel with
  | zero => intro b m lim hf; omega
  | succ fuel ih =>
    intro b m lim hf hwf hL hcons hm hlim
    rw [count_rec]
    by_cases he : anyEmpty b
    · rw [if_pos he]
      cases hfb : find_best_cell b m with
      | none =>
        have hdead := find_best_cell_none b m hfb
          (by
            obtain ⟨r, c, hrc⟩ := (anyEmpty_true b).mp he
            exact ⟨r, c, hrc⟩)
        obtain ⟨r, c, h0, hzero⟩ := hdead
        rw [numCompletions_dead b m r c hcons h0 hzero, Nat.min_eq_left (by omega)]
      | some ch =>
        obtain ⟨hch0, hchc, -⟩ := find_best_cell_some b m ch hfb
        dsimp only
        rw [hchc]
        rw [countLoop_exact (count_rec fuel) fuel
          (fun b1 m1 l1 h1 h2 h3 h4 h5 h6 => ih b1 m1 l1 h1 h2 h3 h4 h5 h6)
          ch.r ch.c (candVals (candidates_mask m ch.r ch.c)) b m lim 0
          hch0 hwf hL hcons hm (by omega) (by omega) (fun w hw => hw)]
        rw [← numCompletions_partition b m ch.r ch.c hcons hch0, Nat.zero_add]
    · rw [if_neg he]
      have hF : Filled b := by
        intro r c
        exact (anyEmpty_false b).mp (Bool.not_eq_true _ ▸ he) r c
      rw [numCompletions_complete b hF hwf hL, Nat.min_eq_left (by omega)]

/-! Soundness and completeness of solve_rec. -/

theorem solveLoop_sound (rec : Board → Masks → Option (Bool × Board × Masks))
    (hrec_sound : ∀ b1 m1 e me, WellFormed b1 → Legal b1 → Consistent b1 m1 →
      MasksU32 m1 → rec b1 m1 = some (true, e, me) → IsCompletion b1 e)
    (hrec_state : ∀ b1 m1 b2 m2, MasksU32 m1 → rec b1 m1 = some (false, b2, m2) →
      b2 = b1 ∧ m2 = m1)
    (r c : Fin 9) :
    ∀ (vs : List ℕ) (b : Board) (m : Masks) (e : Board) (me : Masks),
    b r c = 0 → WellFormed b → Legal b → Consistent b m → MasksU32 m →
    (∀ v ∈ vs, v ∈ candVals (candidates_mask m r c)) →
    solveLoop rec r c vs b m = some (true, e, me) → IsCompletion b e := by
  intro vs
  induction vs with
  | nil =>
    intro b m e me h0 hwf hL hcons hm hvs h
    rw [solveLoop] at h
    exact absurd h (by simp)
  | cons v rest ih =>
    intro b m e me h0 hwf hL hcons hm hvs h
    have hvm := hvs v (List.mem_cons_self _ _)
    obtain ⟨hv1, hv9, hr, hc, hb⟩ := candVal_fresh m r c v hvm
    have hwf1 : WellFormed (apply_set b m r c v).1 := wf_updateCell b r c v hwf hv9
    have hL1 : Legal (apply_set b m r c v).1 := legal_apply_set_cand b m r c v hL hcons h0 hvm
    have hcons1 := consistent_apply_set b m r c v hcons h0 hv1
    have hm1 := masksU32_apply_set b m r c v hv9 hm
    rw [solveLoop] at h
    cases hcall : rec (apply_set b m r c v).1 (apply_set b m r c v).2 with
    | none => rw [hcall] at h; exact absurd h (by simp)
    | some res =>
      obtain ⟨flag, b1, m1⟩ := res
      rw [hcall] at h
      cases flag with
      | true =>
        obtain ⟨he, -⟩ : e = b1 ∧ me = m1 := by
          have h2 := Option.some_injective _ h
          exact ⟨congrArg (fun q => q.2.1) h2.symm, congrArg (fun q => q.2.2) h2.symm⟩
        subst he
        have hcomp := hrec_sound _ _ _ _ hwf1 hL1 hcons1 hm1 hcall
        rw [apply_set_fst] at hcomp
        exact ((isCompletion_updateCell_iff b r c v h0 hv1 e).mp hcomp).1
      | false =>
        obtain ⟨rfl, rfl⟩ := hrec_state _ _ _ _ hm1 hcall
        dsimp only at h
        rw [set_clear_roundtrip b m r c v h0 hv1 hv9 hm hr hc hb] at h
        dsimp only at h
        exact ih b m e me h0 hwf hL hcons hm
          (fun w hw => hvs w (List.mem_cons_of_mem _ hw)) h

theorem solve_rec_sound :
    ∀ (fuel : ℕ) (b : Board) (m : Masks) (e : Board) (me : Masks),
    WellFormed b → Legal b → Consistent b m → MasksU32 m →
    solve_rec fuel b m = some (true, e, me) → IsCompletion b e := by
  intro fuel
  induction fuel with
  | zero => intro b m e me hwf hL hcons hm h; exact absurd h (by simp [solve_rec])
  | succ fuel ih =>
    intro b m e me hwf hL hcons hm h
    rw [solve_rec] at h
    by_cases he : anyEmpty b
    · rw [if_pos he] at h
      cases hfb : find_best_cell b m with
      | none => rw [hfb] at h; exact absurd h (by simp)
      | some ch =>
        rw [hfb] at h
        obtain ⟨hch0, hchc, -⟩ := find_best_cell_some b m ch hfb
        refine solveLoop_sound _ (fun b1 m1 e1 me1 h1 h2 h3 h4 h5 =>
          ih b1 m1 e1 me1 h1 h2 h3 h4 h5)
          (fun b1 m1 b2 m2 h1 h2 => solve_rec_state fuel b1 m1 b2 m2 h1 h2)
          ch.r ch.c (candVals ch.cand) b m e me hch0 hwf hL hcons hm ?_ h
        intro w hw
        rw [hchc] at hw
        exact hw
    · rw [if_neg he] at h
      obtain ⟨he2, -⟩ : e = b ∧ me = m := by
        have h2 := Option.some_injective _ h
        exact ⟨congrArg (fun q => q.2.1) h2.symm, congrArg (fun q => q.2.2) h2.symm⟩
      rw [he2]
      have hF : Filled b := (anyEmpty_false b).mp (Bool.not_eq_true _ ▸ he)
      exact ⟨fun i j _ => rfl, fun r c => ⟨by have := hF r c; omega, hwf r c⟩, hL⟩

theorem solveLoop_complete (rec : Board → Masks → Option (Bool × Board × Masks)) (N : ℕ)
    (hrec_total : ∀ b1 m1, MasksU32 m1 → emptyCount b1 < N → (rec b1 m1).isSome)
    (hrec_state : ∀ b1 m1 b2 m2, MasksU32 m1 → rec b1 m1 = some (false, b2, m2) →
      b2 = b1 ∧ m2 = m1)
    (hrec_complete : ∀ b1 m1 e1, emptyCount b1 < N → WellFormed b1 → Legal b1 →
      Consistent b1 m1 → MasksU32 m1 → IsCompletion b1 e1 →
      ∃ p : Board × Masks, rec b1 m1 = some (true, p.1, p.2))
    (r c : Fin 9) :
    ∀ (vs : List ℕ) (b : Board) (m : Masks) (e : Board),
    b r c = 0 → WellFormed b → Legal b → Consistent b m → MasksU32 m →
    emptyCount b ≤ N →
    (∀ v ∈ vs, v ∈ candVals (candidates_mask m r c)) →
    (∃ v ∈ vs, IsCompletion (updateCell b r c v) e) →
    ∃ p : Board × Masks, solveLoop rec r c vs b m = some (true, p.1, p.2) := by
  intro vs
  induction vs with
  | nil =>
    intro b m e h0 hwf hL hcons hm hN hvs hex
    obtain ⟨v, hv, -⟩ := hex
    exact absurd hv (by simp)
  | cons v rest ih =>
    intro b m e h0 hwf hL hcons hm hN hvs hex
    have hvm := hvs v (List.mem_cons_self _ _)
    obtain ⟨hv1, hv9, hr, hc, hb⟩ := candVal_fresh m r c v hvm
    have hwf1 : WellFormed (apply_set b m r c v).1 := wf_updateCell b r c v hwf hv9
    have hL1 : Legal (apply_set b m r c v).1 := legal_apply_set_cand b m r c v hL hcons h0 hvm
    have hcons1 := consistent_apply_set b m r c v hcons h0 hv1
    have hm1 := masksU32_apply_set b m r c v hv9 hm
    have hN1 : emptyCount (apply_set b m r c v).1 < N := by
      rw [apply_set_fst]
      exact lt_of_lt_of_le (emptyCount_update_lt b r c v h0 (by omega)) hN
    rw [solveLoop]
    have hsome := hrec_total _ _ hm1 hN1
    cases hcall : rec (apply_set b m r c v).1 (apply_set b m r c v).2 with
    | none => rw [hcall] at hsome; exact absurd hsome (by simp)
    | some res =>
      obtain ⟨flag, b1, m1⟩ := res
      cases flag with
      | true => exact ⟨(b1, m1), rfl⟩
      | false =>
        obtain ⟨rfl, rfl⟩ := hrec_state _ _ _ _ hm1 hcall
        dsimp only
        rw [set_clear_roundtrip b m r c v h0 hv1 hv9 hm hr hc hb]
        dsimp only
        obtain ⟨w, hw, hwcomp⟩ := hex
        rcases List.mem_cons.mp hw with rfl | hw2
        · exfalso
          have hcomp1 : IsCompletion (apply_set b m r c w).1 e := by
            rw [apply_set_fst]
            exact hwcomp
          obtain ⟨p, hp⟩ := hrec_complete _ _ e hN1 hwf1 hL1 hcons1 hm1 hcomp1
          rw [hcall] at hp
          have := congrArg (fun q => q.map (fun z => z.1)) hp
          simp at this
        · exact ih b m e h0 hwf hL hcons hm hN
            (fun w2 hw2m => hvs w2 (List.mem_cons_of_mem _ hw2m)) ⟨w, hw2, hwcomp⟩

theorem solve_rec_complete :
    ∀ (fuel : ℕ) (b : Board) (m : Masks) (e : Board),
    emptyCount b < fuel → WellFormed b → Legal b → Consistent b m → MasksU32 m →
    IsCompletion b e →
    ∃ p : Board × Masks, solve_rec fuel b m = some (true, p.1, p.2) := by
  intro fuel
  induction fuel with
  | zero => intro b m e hf; omega
  | succ fuel ih =>
    intro b m e hf hwf hL hcons hm hcomp
    rw [solve_rec]
    by_cases he : anyEmpty b
    · rw [if_pos he]
      cases hfb : find_best_cell b m with
      | none =>
        exfalso
        have hdead := find_best_cell_none b m hfb
          (by
            obtain ⟨r, c, hrc⟩ := (anyEmpty_true b).mp he
            exact ⟨r, c, hrc⟩)
        obtain ⟨r, c, h0, hzero⟩ := hdead
        have := completion_val_candidate b m r c e hcons h0 hcomp
        rw [hzero, Nat.zero_testBit] at this
        exact Bool.false_ne_true this
      | some ch =>
        dsimp only
        obtain ⟨hch0, hchc, -⟩ := find_best_cell_some b m ch hfb
        refine solveLoop_complete (solve_rec fuel) fuel
          (fun b1 m1 h1 h2 => solve_rec_total fuel b1 m1 h1 h2)
          (fun b1 m1 b2 m2 h1 h2 => solve_rec_state fuel b1 m1 b2 m2 h1 h2)
          (fun b1 m1 e1 h1 h2 h3 h4 h5 h6 => ih b1 m1 e1 h1 h2 h3 h4 h5 h6)
          ch.r ch.c (candVals ch.cand) b m e hch0 hwf hL hcons hm (by omega)
          ?_ ?_
        · intro w hw
          rw [hchc] at hw
          exact hw
        · refine ⟨e ch.r ch.c, ?_, ?_⟩
          · rw [hchc]
            exact completion_val_mem b m ch.r ch.c e hcons hch0 hcomp
          · rw [isCompletion_updateCell_iff b ch.r ch.c (e ch.r ch.c) hch0
              (hcomp.2.1 ch.r ch.c).1 e]
            exact ⟨hcomp, rfl⟩
    · rw [if_neg he]
      exact ⟨(b, m), rfl⟩

/-! Masks produced by masks_init on well-formed boards are 32-bit values. -/

theorem lt_u32_of_bits_lt_9 (x : ℕ) (h : ∀ d, x.testBit d = true → d < 9) :
    x < 4294967296 := by
  have hx : x &&& 511 = x := by
    apply Nat.eq_of_testBit_eq
    intro i
    rw [Nat.testBit_land, testBit_511]
    cases hb : x.testBit i with
    | true => simp [h i hb]
    | false => simp
  calc x = x &&& 511 := hx.symm
    _ ≤ 511 := Nat.and_le_right
    _ < 4294967296 := by norm_num

theorem masksU32_masks_init (b : Board) (hwf : WellFormed b) :
    MasksU32 (masks_init b) := by
  intro i
  refine ⟨?_, ?_, ?_⟩
  · apply lt_u32_of_bits_lt_9
    intro d hd
    obtain ⟨c, hc⟩ := (rowMaskInit_testBit b i d).mp hd
    have := hwf i c
    omega
  · apply lt_u32_of_bits_lt_9
    intro d hd
    obtain ⟨r, hr⟩ := (colMaskInit_testBit b i d).mp hd
    have := hwf r i
    omega
  · apply lt_u32_of_bits_lt_9
    intro d hd
    obtain ⟨r, c, -, hc⟩ := (boxMaskInit_testBit b i d).mp hd
    have := hwf r c
    omega

/-! The boolean is_legal agrees with the Legal predicate. -/

theorem scanDup_iff (l : List ℕ) : ∀ used : ℕ,
    (scanDup l used = true ↔
      (List.Pairwise (fun a b => a ≠ 0 → b ≠ 0 → a ≠ b) l ∧
       ∀ v ∈ l, v ≠ 0 → used.testBit (v - 1) = false)) := by
  induction l with
  | nil => intro used; simp [scanDup]
  | cons v rest ih =>
    intro used
    rw [scanDup]
    by_cases hv : v = 0
    · rw [if_pos hv, ih]
      subst hv
      constructor
      · rintro ⟨hpw, hus⟩
        refine ⟨List.Pairwise.cons (fun w hw h0 => absurd rfl h0) hpw, ?_⟩
        intro w hw hw0
        rcases List.mem_cons.mp hw with rfl | hw2
        · exact absurd rfl hw0
        · exact hus w hw2 hw0
      · rintro ⟨hpw, hus⟩
        exact ⟨List.Pairwise.sublist (List.sublist_cons_self _ _) hpw,
          fun w hw hw0 => hus w (List.mem_cons_of_mem _ hw) hw0⟩
    · rw [if_neg hv]
      by_cases hbit : used.testBit (v - 1) = true
      · rw [if_pos ((land_shift_ne_zero used (v - 1)).mpr hbit)]
        constructor
        · intro h
          exact absurd h (by simp)
        · rintro ⟨-, hus⟩
          have := hus v (List.mem_cons_self _ _) hv
          rw [hbit] at this
          exact absurd this (by simp)
      · rw [Bool.not_eq_true] at hbit
        rw [if_neg (by
          intro hne
          have h2 := (land_shift_ne_zero used (v - 1)).mp hne
          rw [hbit] at h2
          exact Bool.false_ne_true h2), ih]
        constructor
        · rintro ⟨hpw, hus⟩
          have hhead : ∀ w ∈ rest, v ≠ 0 → w ≠ 0 → v ≠ w := by
            intro w hw hv0 hw0
            have := hus w hw hw0
            rw [Nat.testBit_lor, testBit_one_shiftLeft, Bool.or_eq_false_iff] at this
            have h2 := this.2
            simp only [decide_eq_false_iff_not] at h2
            omega
          refine ⟨List.Pairwise.cons hhead hpw, ?_⟩
          intro w hw hw0
          rcases List.mem_cons.mp hw with rfl | hw2
          · exact hbit
          · have := hus w hw2 hw0
            rw [Nat.testBit_lor, Bool.or_eq_false_iff] at this
            exact this.1
        · rintro ⟨hpw, hus⟩
          rcases List.pairwise_cons.mp hpw with ⟨hhead, hrest⟩
          refine ⟨hrest, ?_⟩
          intro w hw hw0
          rw [Nat.testBit_lor, testBit_one_shiftLeft, Bool.or_eq_false_iff]
          refine ⟨hus w (List.mem_cons_of_mem _ hw) hw0, ?_⟩
          simp only [decide_eq_false_iff_not]
          have := hhead w hw hv hw0
          omega

theorem pairwise_map_iff {α : Type} (L : List α) (hnd : L.Nodup) (g : α → ℕ) :
    List.Pairwise (fun a b => a ≠ 0 → b ≠ 0 → a ≠ b) (L.map g) ↔
      ∀ p ∈ L, ∀ q ∈ L, p ≠ q → g p ≠ 0 → g q ≠ 0 → g p ≠ g q := by
  rw [List.pairwise_map]
  constructor
  · intro h p hp q hq hne
    obtain ⟨i, hi, hip⟩ := List.getElem_of_mem hp
    obtain ⟨j, hj, hjq⟩ := List.getElem_of_mem hq
    have hij : i ≠ j := by
      intro he
      subst he
      rw [hip] at hjq
      exact hne hjq
    rcases Nat.lt_or_ge i j with hlt | hge
    · have := (List.pairwise_iff_getElem.mp h) i j hi hj hlt
      rw [hip, hjq] at this
      exact this
    · have hlt2 : j < i := by omega
      have := (List.pairwise_iff_getElem.mp h) j i hj hi hlt2
      rw [hip, hjq] at this
      intro h1 h2 h3
      exact this h2 h1 h3.symm
  · intro h
    rw [List.pairwise_iff_getElem]
    intro i j hi hj hlt
    apply h _ (List.getElem_mem _) _ (List.getElem_mem _)
    intro he
    rw [List.Nodup.getElem_inj_iff hnd] at he
    omega

theorem legal_row_scan (b : Board) (hL : Legal b) (r : Fin 9) :
    scanDup ((List.finRange 9).map fun c => b r c) 0 = true := by
  rw [scanDup_iff]
  refine ⟨?_, by simp [Nat.zero_testBit]⟩
  rw [pairwise_map_iff _ (List.nodup_finRange 9)]
  intro p hp q hq hne h1 h2
  exact hL.1 r p q hne h1

theorem legal_col_scan (b : Board) (hL : Legal b) (c : Fin 9) :
    scanDup ((List.finRange 9).map fun r => b r c) 0 = true := by
  rw [scanDup_iff]
  refine ⟨?_, by simp [Nat.zero_testBit]⟩
  rw [pairwise_map_iff _ (List.nodup_finRange 9)]
  intro p hp q hq hne h1 h2
  exact hL.2.1 c p q hne h1

theorem legal_box_scan (b : Board) (hL : Legal b) (i : Fin 9) :
    scanDup ((boxCells i).map fun p => b p.1 p.2) 0 = true := by
  rw [scanDup_iff]
  refine ⟨?_, by simp [Nat.zero_testBit]⟩
  rw [pairwise_map_iff _ (boxCells_nodup i)]
  intro p hp q hq hne h1 h2
  have hpb := mem_boxCells.mp hp
  have hqb := mem_boxCells.mp hq
  exact hL.2.2 p.1 p.2 q.1 q.2 (hpb.trans hqb.symm)
    (fun he => hne (Prod.ext (congrArg Prod.fst he) (congrArg Prod.snd he))) h1

theorem is_legal_iff (b : Board) : is_legal b = true ↔ Legal b := by
  unfold is_legal
  rw [Bool.and_eq_true, Bool.and_eq_true]
  simp only [List.all_eq_true]
  constructor
  · rintro ⟨⟨hrow, hcol⟩, hbox⟩
    refine ⟨?_, ?_, ?_⟩
    · intro r c1 c2 hne h1
      have := (scanDup_iff _ 0).mp (hrow r (List.mem_finRange r))
      rw [pairwise_map_iff _ (List.nodup_finRange 9)] at this
      by_cases h2 : b r c2 = 0
      · rw [h2]; exact h1
      · exact this.1 c1 (List.mem_finRange _) c2 (List.mem_finRange _) hne h1 h2
    · intro c r1 r2 hne h1
      have := (scanDup_iff _ 0).mp (hcol c (List.mem_finRange c))
      rw [pairwise_map_iff _ (List.nodup_finRange 9)] at this
      by_cases h2 : b r2 c = 0
      · rw [h2]; exact h1
      · exact this.1 r1 (List.mem_finRange _) r2 (List.mem_finRange _) hne h1 h2
    · intro r1 c1 r2 c2 hbx hne h1
      have := (scanDup_iff _ 0).mp (hbox (box_index r1 c1) (List.mem_finRange _))
      rw [pairwise_map_iff _ (boxCells_nodup _)] at this
      by_cases h2 : b r2 c2 = 0
      · rw [h2]; exact h1
      · exact this.1 (r1, c1) (mem_boxCells.mpr rfl) (r2, c2) (mem_boxCells.mpr hbx.symm)
          hne h1 h2
  · intro hL
    exact ⟨⟨fun r _ => legal_row_scan b hL r, fun c _ => legal_col_scan b hL c⟩,
      fun i _ => legal_box_scan b hL i⟩

/-! Top-level wrappers. -/

theorem count_solutions_spec (b : Board) (k : ℕ) (hwf : WellFormed b) (hL : Legal b)
    (hk : 1 ≤ k) : count_solutions b k = min (numCompletions b) k := by
  unfold count_solutions
  rw [count_rec_exact 82 b (masks_init b) k (by have := emptyCount_le_81 b; omega)
    hwf hL (masks_init_consistent b) (masksU32_masks_init b hwf) hk]

theorem count_solutions_filled (b : Board) (lim : ℕ) (hF : Filled b) :
    count_solutions b lim = 1 := by
  unfold count_solutions
  rw [show (82 : ℕ) = 81 + 1 from rfl, count_rec,
    if_neg (by
      rw [(anyEmpty_false b).mpr hF]
      simp)]

theorem solve_board_of_unique (b U : Board) (hwf : WellFormed b) (hL : Legal b)
    (hU : IsCompletion b U) (huniq : ∀ e, IsCompletion b e → e = U) :
    solve_board b = some U := by
  unfold solve_board
  obtain ⟨p, hp⟩ := solve_rec_complete 82 b (masks_init b) U
    (by have := emptyCount_le_81 b; omega) hwf hL (masks_init_consistent b)
    (masksU32_masks_init b hwf) hU
  rw [hp]
  have := solve_rec_sound 82 b (masks_init b) p.1 p.2 hwf hL (masks_init_consistent b)
    (masksU32_masks_init b hwf) hp
  rw [huniq p.1 this]

theorem solve_board_none_of_unsat (b : Board) (hwf : WellFormed b) (hL : Legal b)
    (hnone : ∀ e, ¬IsCompletion b e) : solve_board b = none := by
  unfold solve_board
  have hsome := solve_rec_total 82 b (masks_init b)
    (masksU32_masks_init b hwf) (by have := emptyCount_le_81 b; omega)
  cases hres : solve_rec 82 b (masks_init b) with
  | none => rw [hres] at hsome
  | some res =>
    obtain ⟨flag, e, me⟩ := res
    cases flag with
    | true =>
      exfalso
      exact hnone e (solve_rec_sound 82 b (masks_init b) e me hwf hL
        (masks_init_consistent b) (masksU32_masks_init b hwf) hres)
    | false => rfl

/-! The carving loop preserves unique solvability. -/

theorem bset_eq_self (b : Board) (r c : ℕ) (h : bget b r c = 0) : bset b r c 0 = b := by
  unfold bset
  unfold bget at h
  by_cases hin : r < 9 ∧ c < 9
  · rw [dif_pos hin] at h ⊢
    funext i j
    unfold updateCell
    by_cases hij : i = ⟨r, hin.1⟩ ∧ j = ⟨c, hin.2⟩
    · rw [if_pos hij, hij.1, hij.2]
      exact h.symm
    · rw [if_neg hij]
  · rw [dif_neg hin]

theorem carve_commit_eq_test (p : Board) (i : ℕ) :
    (if 8 - i / 9 = i / 9 ∧ 8 - i % 9 = i % 9 then bset p (i / 9) (i % 9) 0
     else bset (bset p (i / 9) (i % 9) 0) (8 - i / 9) (8 - i % 9) 0) =
    (carveTest p i).1 := by
  unfold carveTest
  by_cases hsym : 8 - i / 9 = i / 9 ∧ 8 - i % 9 = i % 9
  · rw [if_pos hsym, if_neg (by
      rintro ⟨hns, -⟩
      exact hns hsym)]
  · rw [if_neg hsym]
    by_cases hin : bget (bset p (i / 9) (i % 9) 0) (8 - i / 9) (8 - i % 9) ≠ 0
    · rw [if_pos ⟨hsym, hin⟩]
    · rw [if_neg (by
        rintro ⟨-, hx⟩
        exact hin hx)]
      push_neg at hin
      exact bset_eq_self _ _ _ hin

theorem carveLoop_count (cells : List ℕ) :
    ∀ (p : Board) (clues target attempts : ℕ),
    count_solutions p 2 = 1 →
    count_solutions (carveLoop cells p clues target attempts) 2 = 1 := by
  induction cells with
  | nil => intro p clues target attempts hp; exact hp
  | cons i rest ih =>
    intro p clues target attempts hp
    rw [carveLoop]
    by_cases h1 : clues ≤ target
    · rw [if_pos h1]; exact hp
    · rw [if_neg h1]
      dsimp only
      by_cases h2 : bget p (i / 9) (i % 9) = 0
      · rw [if_pos h2]; exact ih p clues target attempts hp
      · rw [if_neg h2]
        by_cases h3 : count_solutions (carveTest p i).1 2 = 1
        · rw [if_pos h3, if_pos h3]
          rw [carve_commit_eq_test p i]
          by_cases h4 : 20000 < attempts + 1
          · rw [if_pos h4]; exact h3
          · rw [if_neg h4]; exact ih _ _ _ _ h3
        · rw [if_neg h3, if_neg h3]
          by_cases h4 : 20000 < attempts + 1
          · rw [if_pos h4]; exact hp
          · rw [if_neg h4]; exact ih _ _ _ _ hp

theorem carveLoop_skip (i : ℕ) (rest : List ℕ) (p : Board)
    (clues target attempts : ℕ)
    (hct : target < clues) (hcell : bget p (i / 9) (i % 9) ≠ 0)
    (hsols : count_solutions (carveTest p i).1 2 ≠ 1)
    (hcap : attempts + 1 ≤ 20000) :
    carveLoop (i :: rest) p clues target attempts =
      carveLoop rest p clues target (attempts + 1) := by
  rw [carveLoop, if_neg (by omega)]
  dsimp only
  rw [if_neg hcell, if_neg hsols, if_neg hsols, if_neg (by omega)]

/-! shuffle_array produces a permutation of its input. -/

theorem listSwap_perm (l : List ℕ) (i j : ℕ) (hi : i < l.length) (hj : j < l.length) :
    (listSwap l i j).Perm l := by
  rw [List.perm_iff_count]
  intro a
  unfold listSwap
  rw [List.getD_eq_getElem l 0 hj, List.getD_eq_getElem l 0 hi]
  rw [List.count_set _ _ _ _ (by rw [List.length_set]; exact hj),
      List.count_set _ _ _ _ hi]
  have hci : l[i] = a → 1 ≤ l.count a := fun h =>
    List.count_pos_iff.mpr (h ▸ List.getElem_mem _)
  have hcj : l[j] = a → 1 ≤ l.count a := fun h =>
    List.count_pos_iff.mpr (h ▸ List.getElem_mem _)
  by_cases hij : i = j
  · subst hij
    rw [List.getElem_set_self]
    by_cases h1 : l[i] = a
    · have := hci h1
      simp [h1]
      omega
    · simp [h1]
  · rw [List.getElem_set_ne hij]
    by_cases h1 : l[i] = a <;> by_cases h2 : l[j] = a
    · have := hci h1
      simp [h1, h2]
      omega
    · have := hci h1
      simp [h1, h2]
      omega
    · have := hcj h2
      simp [h1, h2]
    · simp [h1, h2]

theorem shuffleGo_perm : ∀ (k : ℕ) (l : List ℕ) (s : Rng), k < l.length →
    ((shuffleGo k l s).1).Perm l := by
  intro k
  induction k with
  | zero => intro l s hk; rw [shuffleGo]
  | succ k ih =>
    intro l s hk
    rw [shuffleGo]
    have hswap := listSwap_perm l (k + 1) ((randN s).1 % (k + 2)) hk
      (by
        have : (randN s).1 % (k + 2) < k + 2 := Nat.mod_lt _ (by omega)
        omega)
    have hlen : (listSwap l (k + 1) ((randN s).1 % (k + 2))).length = l.length :=
      hswap.length_eq
    exact (ih _ _ (by omega)).trans hswap

theorem shuffle_array_perm (l : List ℕ) (s : Rng) : ((shuffle_array l s).1).Perm l := by
  unfold shuffle_array
  cases l with
  | nil => rw [show ([] : List ℕ).length - 1 = 0 from rfl, shuffleGo]
  | cons x xs =>
    apply shuffleGo_perm
    simp

/-! Validity-preserving board transformations. -/

theorem box_index_val (r c : Fin 9) :
    (box_index r c).val = r.val / 3 * 3 + c.val / 3 := rfl

theorem rowPermLegal (b : Board) (ρ : Fin 9 → Fin 9)
    (hinj : Function.Injective ρ)
    (hband : ∀ r1 r2 : Fin 9, r1.val / 3 = r2.val / 3 → (ρ r1).val / 3 = (ρ r2).val / 3)
    (hL : Legal b) : Legal (fun r c => b (ρ r) c) := by
  obtain ⟨hR, hC, hB⟩ := hL
  refine ⟨?_, ?_, ?_⟩
  · intro r c1 c2 hne h1
    exact hR (ρ r) c1 c2 hne h1
  · intro c r1 r2 hne h1
    exact hC c (ρ r1) (ρ r2) (fun h => hne (hinj h)) h1
  · intro r1 c1 r2 c2 hbx hne h1
    have hv := congrArg Fin.val hbx
    rw [box_index_val, box_index_val] at hv
    have u1 := r1.isLt
    have u2 := r2.isLt
    have u3 := c1.isLt
    have u4 := c2.isLt
    have hb1 : r1.val / 3 = r2.val / 3 := by omega
    have hb2 : c1.val / 3 = c2.val / 3 := by omega
    have hρ := hband r1 r2 hb1
    have hbx2 : box_index (ρ r1) c1 = box_index (ρ r2) c2 := by
      apply Fin.ext
      rw [box_index_val, box_index_val]
      omega
    apply hB (ρ r1) c1 (ρ r2) c2 hbx2 ?_ h1
    intro h
    apply hne
    have e1 : ρ r1 = ρ r2 := congrArg Prod.fst h
    have e2 : c1 = c2 := congrArg Prod.snd h
    rw [hinj e1, e2]

theorem colPermLegal (b : Board) (γ : Fin 9 → Fin 9)
    (hinj : Function.Injective γ)
    (hband : ∀ c1 c2 : Fin 9, c1.val / 3 = c2.val / 3 → (γ c1).val / 3 = (γ c2).val / 3)
    (hL : Legal b) : Legal (fun r c => b r (γ c)) := by
  obtain ⟨hR, hC, hB⟩ := hL
  refine ⟨?_, ?_, ?_⟩
  · intro r c1 c2 hne h1
    exact hR r (γ c1) (γ c2) (fun h => hne (hinj h)) h1
  · intro c r1 r2 hne h1
    exact hC (γ c) r1 r2 hne h1
  · intro r1 c1 r2 c2 hbx hne h1
    have hv := congrArg Fin.val hbx
    rw [box_index_val, box_index_val] at hv
    have u1 := r1.isLt
    have u2 := r2.isLt
    have u3 := c1.isLt
    have u4 := c2.isLt
    have hb1 : r1.val / 3 = r2.val / 3 := by omega
    have hb2 : c1.val / 3 = c2.val / 3 := by omega
    have hγ := hband c1 c2 hb2
    have hbx2 : box_index r1 (γ c1) = box_index r2 (γ c2) := by
      apply Fin.ext
      rw [box_index_val, box_index_val]
      omega
    apply hB r1 (γ c1) r2 (γ c2) hbx2 ?_ h1
    intro h
    apply hne
    have e1 : r1 = r2 := congrArg Prod.fst h
    have e2 : γ c1 = γ c2 := congrArg Prod.snd h
    rw [e1, hinj e2]

theorem relabelLegal (b : Board) (f : ℕ → ℕ)
    (hinj : ∀ v w, 1 ≤ v → v ≤ 9 → 1 ≤ w → w ≤ 9 → f v = f w → v = w)
    (hrange : ∀ r c : Fin 9, 1 ≤ b r c ∧ b r c ≤ 9)
    (hL : Legal b) : Legal (fun r c => f (b r c)) := by
  obtain ⟨hR, hC, hB⟩ := hL
  refine ⟨?_, ?_, ?_⟩
  · intro r c1 c2 hne h1 hEq
    obtain ⟨a1, a2⟩ := hrange r c1
    obtain ⟨b1, b2⟩ := hrange r c2
    exact hR r c1 c2 hne (by omega) (hinj _ _ a1 a2 b1 b2 hEq)
  · intro c r1 r2 hne h1 hEq
    obtain ⟨a1, a2⟩ := hrange r1 c
    obtain ⟨b1, b2⟩ := hrange r2 c
    exact hC c r1 r2 hne (by omega) (hinj _ _ a1 a2 b1 b2 hEq)
  · intro r1 c1 r2 c2 hbx hne h1 hEq
    obtain ⟨a1, a2⟩ := hrange r1 c1
    obtain ⟨b1, b2⟩ := hrange r2 c2
    exact hB r1 c1 r2 c2 hbx hne (by omega) (hinj _ _ a1 a2 b1 b2 hEq)

/-- The row (or column) permutation performed by one band (or stack) step:
index within the band is looked up in the shuffled three-element list. -/
def bandRho (rows : List ℕ) (band : ℕ)
    (hb9 : ∀ k : ℕ, k < 3 → rows.getD k 0 < 9) : Fin 9 → Fin 9 :=
  fun r =>
    if h : r.val / 3 = band then
      ⟨rows.getD (r.val % 3) 0, hb9 _ (by have := r.isLt; omega)⟩
    else r

/-- The row (or column) permutation performed by shuffle_bands (or
shuffle_stacks): the band index is looked up in the shuffled [0,1,2]. -/
def wholeRho (bands : List ℕ)
    (hb3 : ∀ k : ℕ, k < 3 → bands.getD k 0 < 3) : Fin 9 → Fin 9 :=
  fun r =>
    ⟨bands.getD (r.val / 3) 0 * 3 + r.val % 3, by
      have h1 := r.isLt
      have h2 := hb3 (r.val / 3) (by omega)
      omega⟩

theorem getD_inj_of_nodup (l : List ℕ) (hnd : l.Nodup) (i j : ℕ)
    (hi : i < l.length) (hj : j < l.length) (h : l.getD i 0 = l.getD j 0) : i = j := by
  apply (List.Nodup.getElem_inj_iff hnd).mp
  rw [← List.getD_eq_getElem l 0 hi, ← List.getD_eq_getElem l 0 hj]
  exact h

theorem bandRho_inj (rows : List ℕ) (band : ℕ)
    (hb9 : ∀ k : ℕ, k < 3 → rows.getD k 0 < 9)
    (hlen : rows.length = 3) (hnd : rows.Nodup)
    (hmem : ∀ x ∈ rows, band * 3 ≤ x ∧ x < band * 3 + 3) :
    Function.Injective (bandRho rows band hb9) := by
  have hin : ∀ k : ℕ, k < 3 → band * 3 ≤ rows.getD k 0 ∧ rows.getD k 0 < band * 3 + 3 := by
    intro k hk
    apply hmem
    rw [List.getD_eq_getElem _ _ (by omega)]
    exact List.getElem_mem _
  intro r1 r2 h
  unfold bandRho at h
  by_cases h1 : r1.val / 3 = band <;> by_cases h2 : r2.val / 3 = band
  · rw [dif_pos h1, dif_pos h2] at h
    have hv := congrArg Fin.val h
    simp only at hv
    have := getD_inj_of_nodup rows hnd (r1.val % 3) (r2.val % 3)
      (by have := r1.isLt; omega) (by have := r2.isLt; omega) hv
    apply Fin.ext
    omega
  · rw [dif_pos h1, dif_neg h2] at h
    have hv := congrArg Fin.val h
    simp only at hv
    have := (hin (r1.val % 3) (by have := r1.isLt; omega)).1
    have := (hin (r1.val % 3) (by have := r1.isLt; omega)).2
    exfalso
    apply h2
    omega
  · rw [dif_neg h1, dif_pos h2] at h
    have hv := congrArg Fin.val h
    simp only at hv
    have := (hin (r2.val % 3) (by have := r2.isLt; omega)).1
    have := (hin (r2.val % 3) (by have := r2.isLt; omega)).2
    exfalso
    apply h1
    omega
  · rw [dif_neg h1, dif_neg h2] at h
    exact h

theorem bandRho_band (rows : List ℕ) (band : ℕ)
    (hb9 : ∀ k : ℕ, k < 3 → rows.getD k 0 < 9)
    (hlen : rows.length = 3)
    (hmem : ∀ x ∈ rows, band * 3 ≤ x ∧ x < band * 3 + 3) :
    ∀ r1 r2 : Fin 9, r1.val / 3 = r2.val / 3 →
      (bandRho rows band hb9 r1).val / 3 = (bandRho rows band hb9 r2).val / 3 := by
  have hin : ∀ k : ℕ, k < 3 → band * 3 ≤ rows.getD k 0 ∧ rows.getD k 0 < band * 3 + 3 := by
    intro k hk
    apply hmem
    rw [List.getD_eq_getElem _ _ (by omega)]
    exact List.getElem_mem _
  intro r1 r2 hr
  unfold bandRho
  by_cases h1 : r1.val / 3 = band
  · rw [dif_pos h1, dif_pos (hr ▸ h1)]
    simp only
    have a1 := hin (r1.val % 3) (by have := r1.isLt; omega)
    have a2 := hin (r2.val % 3) (by have := r2.isLt; omega)
    omega
  · rw [dif_neg h1, dif_neg (hr ▸ h1)]
    exact hr

theorem wholeRho_inj (bands : List ℕ)
    (hb3 : ∀ k : ℕ, k < 3 → bands.getD k 0 < 3)
    (hlen : bands.length = 3) (hnd : bands.Nodup) :
    Function.Injective (wholeRho bands hb3) := by
  intro r1 r2 h
  have hv := congrArg Fin.val h
  unfold wholeRho at hv
  simp only at hv
  have g1 := hb3 (r1.val / 3) (by have := r1.isLt; omega)
  have g2 := hb3 (r2.val / 3) (by have := r2.isLt; omega)
  by_cases hq : r1.val / 3 = r2.val / 3
  · apply Fin.ext
    rw [hq] at hv
    omega
  · exfalso
    have hne : bands.getD (r1.val / 3) 0 ≠ bands.getD (r2.val / 3) 0 := by
      intro he
      exact hq (getD_inj_of_nodup bands hnd _ _
        (by have := r1.isLt; omega) (by have := r2.isLt; omega) he)
    omega

theorem wholeRho_band (bands : List ℕ)
    (hb3 : ∀ k : ℕ, k < 3 → bands.getD k 0 < 3) :
    ∀ r1 r2 : Fin 9, r1.val / 3 = r2.val / 3 →
      (wholeRho bands hb3 r1).val / 3 = (wholeRho bands hb3 r2).val / 3 := by
  intro r1 r2 hr
  unfold wholeRho
  simp only
  have g1 := hb3 (r1.val / 3) (by have := r1.isLt; omega)
  have g2 := hb3 (r2.val / 3) (by have := r2.isLt; omega)
  rw [hr]
  omega

/-- The invariant carried through the generator: every cell in 1..9 and no
duplicates in any unit. -/
def Good (b : Board) : Prop :=
  (∀ r c : Fin 9, 1 ≤ b r c ∧ b r c ≤ 9) ∧ Legal b

theorem base_good : Good base_complete := by
  constructor
  · intro r c
    unfold base_complete
    have := Nat.mod_lt (r.val * 3 + r.val / 3 + c.val) (show 0 < 9 by norm_num)
    omega
  · decide

theorem permute_digits_good (b : Board) (s : Rng) (hg : Good b) :
    Good (permute_digits b s).1 := by
  obtain ⟨hrange, hL⟩ := hg
  unfold permute_digits
  dsimp only
  generalize hG : (shuffle_array [1, 2, 3, 4, 5, 6, 7, 8, 9] s).1 = mapL
  have hperm : mapL.Perm [1, 2, 3, 4, 5, 6, 7, 8, 9] := hG ▸ shuffle_array_perm _ s
  have hlen : mapL.length = 9 := by rw [hperm.length_eq]; rfl
  have hnd : mapL.Nodup := hperm.nodup_iff.mpr (by decide)
  have hmem : ∀ x ∈ mapL, 1 ≤ x ∧ x ≤ 9 := by
    intro x hx
    have h2 := hperm.mem_iff.mp hx
    simp only [List.mem_cons, List.not_mem_nil, or_false] at h2
    omega
  have heq : (fun (r c : Fin 9) => if b r c = 0 then 0 else mapL.getD (b r c - 1) 0)
      = fun r c => mapL.getD (b r c - 1) 0 := by
    funext r c
    rw [if_neg (by have := hrange r c; omega)]
  rw [heq]
  have hgets : ∀ v : ℕ, 1 ≤ v → v ≤ 9 →
      1 ≤ mapL.getD (v - 1) 0 ∧ mapL.getD (v - 1) 0 ≤ 9 := by
    intro v h1 h9
    apply hmem
    rw [List.getD_eq_getElem _ _ (by omega)]
    exact List.getElem_mem _
  constructor
  · intro r c
    exact hgets _ (hrange r c).1 (hrange r c).2
  · apply relabelLegal b (fun v => mapL.getD (v - 1) 0) ?_ hrange hL
    intro v w a1 a2 b1 b2 hEq
    have := getD_inj_of_nodup mapL hnd (v - 1) (w - 1) (by omega) (by omega) hEq
    omega

theorem bandStep_good (b : Board) (band : ℕ) (hband : band < 3) (s : Rng)
    (hg : Good b) : Good (bandStep b band s).1 := by
  obtain ⟨hrange, hL⟩ := hg
  unfold bandStep
  dsimp only
  generalize hG : (shuffle_array [band * 3, band * 3 + 1, band * 3 + 2] s).1 = rows
  have hperm : rows.Perm [band * 3, band * 3 + 1, band * 3 + 2] :=
    hG ▸ shuffle_array_perm _ s
  have hlen : rows.length = 3 := by rw [hperm.length_eq]; rfl
  have hnd : rows.Nodup := hperm.nodup_iff.mpr (by simp)
  have hmem : ∀ x ∈ rows, band * 3 ≤ x ∧ x < band * 3 + 3 := by
    intro x hx
    have h2 := hperm.mem_iff.mp hx
    simp only [List.mem_cons, List.not_mem_nil, or_false] at h2
    omega
  have hb9 : ∀ k : ℕ, k < 3 → rows.getD k 0 < 9 := by
    intro k hk
    have hmemk : rows.getD k 0 ∈ rows := by
      rw [List.getD_eq_getElem _ _ (by omega)]
      exact List.getElem_mem _
    have := hmem _ hmemk
    omega
  have heq : (fun (r c : Fin 9) =>
      if r.val / 3 = band then bget b (rows.getD (r.val % 3) 0) c.val else b r c)
      = fun r c => b (bandRho rows band hb9 r) c := by
    funext r c
    unfold bandRho
    by_cases hr : r.val / 3 = band
    · rw [if_pos hr, dif_pos hr]
      unfold bget
      rw [dif_pos (⟨hb9 _ (by have := r.isLt; omega), c.isLt⟩ :
        rows.getD (r.val % 3) 0 < 9 ∧ c.val < 9)]
    · rw [if_neg hr, dif_neg hr]
  rw [heq]
  constructor
  · intro r c
    exact hrange _ _
  · exact rowPermLegal b _ (bandRho_inj rows band hb9 hlen hnd hmem)
      (bandRho_band rows band hb9 hlen hmem) hL

theorem stackStep_good (b : Board) (stack : ℕ) (hstack : stack < 3) (s : Rng)
    (hg : Good b) : Good (stackStep b stack s).1 := by
  obtain ⟨hrange, hL⟩ := hg
  unfold stackStep
  dsimp only
  generalize hG : (shuffle_array [stack * 3, stack * 3 + 1, stack * 3 + 2] s).1 = cols
  have hperm : cols.Perm [stack * 3, stack * 3 + 1, stack * 3 + 2] :=
    hG ▸ shuffle_array_perm _ s
  have hlen : cols.length = 3 := by rw [hperm.length_eq]; rfl
  have hnd : cols.Nodup := hperm.nodup_iff.mpr (by simp)
  have hmem : ∀ x ∈ cols, stack * 3 ≤ x ∧ x < stack * 3 + 3 := by
    intro x hx
    have h2 := hperm.mem_iff.mp hx
    simp only [List.mem_cons, List.not_mem_nil, or_false] at h2
    omega
  have hb9 : ∀ k : ℕ, k < 3 → cols.getD k 0 < 9 := by
    intro k hk
    have hmemk : cols.getD k 0 ∈ cols := by
      rw [List.getD_eq_getElem _ _ (by omega)]
      exact List.getElem_mem _
    have := hmem _ hmemk
    omega
  have heq : (fun (r c : Fin 9) =>
      if c.val / 3 = stack then bget b r.val (cols.getD (c.val % 3) 0) else b r c)
      = fun r c => b r (bandRho cols stack hb9 c) := by
    funext r c
    unfold bandRho
    by_cases hc : c.val / 3 = stack
    · rw [if_pos hc, dif_pos hc]
      unfold bget
      rw [dif_pos (⟨r.isLt, hb9 _ (by have := c.isLt; omega)⟩ :
        r.val < 9 ∧ cols.getD (c.val % 3) 0 < 9)]
    · rw [if_neg hc, dif_neg hc]
  rw [heq]
  constructor
  · intro r c
    exact hrange _ _
  · exact colPermLegal b _ (bandRho_inj cols stack hb9 hlen hnd hmem)
      (bandRho_band cols stack hb9 hlen hmem) hL

theorem shuffle_bands_good (b : Board) (s : Rng) (hg : Good b) :
    Good (shuffle_bands b s).1 := by
  obtain ⟨hrange, hL⟩ := hg
  unfold shuffle_bands
  dsimp only
  generalize hG : (shuffle_array [0, 1, 2] s).1 = bands
  have hperm : bands.Perm [0, 1, 2] := hG ▸ shuffle_array_perm _ s
  have hlen : bands.length = 3 := by rw [hperm.length_eq]; rfl
  have hnd : bands.Nodup := hperm.nodup_iff.mpr (by decide)
  have hb3 : ∀ k : ℕ, k < 3 → bands.getD k 0 < 3 := by
    intro k hk
    have hmemk : bands.getD k 0 ∈ bands := by
      rw [List.getD_eq_getElem _ _ (by omega)]
      exact List.getElem_mem _
    have h2 := hperm.mem_iff.mp hmemk
    simp only [List.mem_cons, List.not_mem_nil, or_false] at h2
    omega
  have heq : (fun (r c : Fin 9) =>
      bget b (bands.getD (r.val / 3) 0 * 3 + r.val % 3) c.val)
      = fun r c => b (wholeRho bands hb3 r) c := by
    funext r c
    unfold wholeRho bget
    have hbound : bands.getD (r.val / 3) 0 * 3 + r.val % 3 < 9 := by
      have h1 := hb3 (r.val / 3) (by have := r.isLt; omega)
      have h2 := r.isLt
      omega
    rw [dif_pos (⟨hbound, c.isLt⟩ :
      bands.getD (r.val / 3) 0 * 3 + r.val % 3 < 9 ∧ c.val < 9)]
  rw [heq]
  constructor
  · intro r c
    exact hrange _ _
  · exact rowPermLegal b _ (wholeRho_inj bands hb3 hlen hnd)
      (wholeRho_band bands hb3) hL

theorem shuffle_stacks_good (b : Board) (s : Rng) (hg : Good b) :
    Good (shuffle_stacks b s).1 := by
  obtain ⟨hrange, hL⟩ := hg
  unfold shuffle_stacks
  dsimp only
  generalize hG : (shuffle_array [0, 1, 2] s).1 = stks
  have hperm : stks.Perm [0, 1, 2] := hG ▸ shuffle_array_perm _ s
  have hlen : stks.length = 3 := by rw [hperm.length_eq]; rfl
  have hnd : stks.Nodup := hperm.nodup_iff.mpr (by decide)
  have hb3 : ∀ k : ℕ, k < 3 → stks.getD k 0 < 3 := by
    intro k hk
    have hmemk : stks.getD k 0 ∈ stks := by
      rw [List.getD_eq_getElem _ _ (by omega)]
      exact List.getElem_mem _
    have h2 := hperm.mem_iff.mp hmemk
    simp only [List.mem_cons, List.not_mem_nil, or_false] at h2
    omega
  have heq : (fun (r c : Fin 9) =>
      bget b r.val (stks.getD (c.val / 3) 0 * 3 + c.val % 3))
      = fun r c => b r (wholeRho stks hb3 c) := by
    funext r c
    unfold wholeRho bget
    have hbound : stks.getD (c.val / 3) 0 * 3 + c.val % 3 < 9 := by
      have h1 := hb3 (c.val / 3) (by have := c.isLt; omega)
      have h2 := c.isLt
      omega
    rw [dif_pos (⟨r.isLt, hbound⟩ :
      r.val < 9 ∧ stks.getD (c.val / 3) 0 * 3 + c.val % 3 < 9)]
  rw [heq]
  constructor
  · intro r c
    exact hrange _ _
  · exact colPermLegal b _ (wholeRho_inj stks hb3 hlen hnd)
      (wholeRho_band stks hb3) hL

theorem shuffle_rows_within_bands_good (b : Board) (s : Rng) (hg : Good b) :
    Good (shuffle_rows_within_bands b s).1 := by
  unfold shuffle_rows_within_bands
  dsimp only
  exact bandStep_good _ 2 (by omega) _
    (bandStep_good _ 1 (by omega) _ (bandStep_good _ 0 (by omega) _ hg))

theorem shuffle_cols_within_stacks_good (b : Board) (s : Rng) (hg : Good b) :
    Good (shuffle_cols_within_stacks b s).1 := by
  unfold shuffle_cols_within_stacks
  dsimp only
  exact stackStep_good _ 2 (by omega) _
    (stackStep_good _ 1 (by omega) _ (stackStep_good _ 0 (by omega) _ hg))

theorem generate_complete_good (s : Rng) : Good (generate_complete s).1 := by
  unfold generate_complete
  dsimp only
  exact shuffle_stacks_good _ _ (shuffle_bands_good _ _
    (shuffle_cols_within_stacks_good _ _
      (shuffle_rows_within_bands_good _ _ (permute_digits_good _ _ base_good))))

/-! Scan-order behaviour of find_best_cell. -/

theorem fbcAux_dead_first (b : Board) (m : Masks) :
    ∀ (P : List (Fin 9 × Fin 9)) (z : Fin 9 × Fin 9) (rest : List (Fin 9 × Fin 9))
      (best : Option Choice) (bc : ℕ),
    2 ≤ bc →
    (∀ p ∈ P, ¬(b p.1 p.2 = 0 ∧ popcount9 (candidates_mask m p.1 p.2) ≤ 1)) →
    b z.1 z.2 = 0 → popcount9 (candidates_mask m z.1 z.2) = 0 →
    fbcAux b m (P ++ z :: rest) best bc = none := by
  intro P
  induction P with
  | nil =>
    intro z rest best bc hbc hP hz0 hzc
    rw [List.nil_append, fbcAux, if_neg (by simpa using hz0), if_pos hzc]
  | cons p P2 ih =>
    intro z rest best bc hbc hP hz0 hzc
    rw [List.cons_append, fbcAux]
    have hp := hP p (List.mem_cons_self _ _)
    by_cases hpf : b p.1 p.2 ≠ 0
    · rw [if_pos hpf]
      exact ih z rest best bc hbc
        (fun q hq => hP q (List.mem_cons_of_mem _ hq)) hz0 hzc
    · rw [if_neg hpf]
      push_neg at hpf
      have hcnt : 2 ≤ popcount9 (candidates_mask m p.1 p.2) := by
        by_contra hc
        exact hp ⟨hpf, by omega⟩
      rw [if_neg (by omega)]
      by_cases hlt : popcount9 (candidates_mask m p.1 p.2) < bc
      · rw [if_pos hlt, if_neg (by omega)]
        exact ih z rest _ _ (by omega)
          (fun q hq => hP q (List.mem_cons_of_mem _ hq)) hz0 hzc
      · rw [if_neg hlt]
        exact ih z rest best bc hbc
          (fun q hq => hP q (List.mem_cons_of_mem _ hq)) hz0 hzc

theorem fbcAux_first_singleton (b : Board) (m : Masks) :
    ∀ (P : List (Fin 9 × Fin 9)) (z : Fin 9 × Fin 9) (rest : List (Fin 9 × Fin 9))
      (best : Option Choice) (bc : ℕ),
    2 ≤ bc →
    (∀ p ∈ P, ¬(b p.1 p.2 = 0 ∧ popcount9 (candidates_mask m p.1 p.2) ≤ 1)) →
    b z.1 z.2 = 0 → popcount9 (candidates_mask m z.1 z.2) = 1 →
    fbcAux b m (P ++ z :: rest) best bc =
      some ⟨z.1, z.2, candidates_mask m z.1 z.2⟩ := by
  intro P
  induction P with
  | nil =>
    intro z rest best bc hbc hP hz0 hzc
    rw [List.nil_append, fbcAux, if_neg (by simpa using hz0), if_neg (by omega),
      if_pos (by omega), if_pos hzc]
  | cons p P2 ih =>
    intro z rest best bc hbc hP hz0 hzc
    rw [List.cons_append, fbcAux]
    have hp := hP p (List.mem_cons_self _ _)
    by_cases hpf : b p.1 p.2 ≠ 0
    · rw [if_pos hpf]
      exact ih z rest best bc hbc
        (fun q hq => hP q (List.mem_cons_of_mem _ hq)) hz0 hzc
    · rw [if_neg hpf]
      push_neg at hpf
      have hcnt : 2 ≤ popcount9 (candidates_mask m p.1 p.2) := by
        by_contra hc
        exact hp ⟨hpf, by omega⟩
      rw [if_neg (by omega)]
      by_cases hlt : popcount9 (candidates_mask m p.1 p.2) < bc
      · rw [if_pos hlt, if_neg (by omega)]
        exact ih z rest _ _ (by omega)
          (fun q hq => hP q (List.mem_cons_of_mem _ hq)) hz0 hzc
      · rw [if_neg hlt]
        exact ih z rest best bc hbc
          (fun q hq => hP q (List.mem_cons_of_mem _ hq)) hz0 hzc

/-! Concrete boards used to instantiate and refute claims. -/

/-- base_complete with the corner cell cleared: a legal, well-formed board
with one empty cell. -/
def cornerCleared : Board := updateCell base_complete 0 0 0

/-- Concrete board: in row-major scan order, cell (0,0) is empty with the
single candidate 1, while cell (0,1), scanned later, is empty with no
candidate at all. -/
def cexBoard : Board := fun r c =>
  if r.val = 0 then (if c.val ≤ 1 then 0 else c.val + 1)
  else if r.val = 1 ∧ c.val = 2 then 2
  else if r.val = 3 ∧ c.val = 1 then 1
  else 0

/-- Concrete board whose first empty cell in scan order, (0,1), has no
candidates; the only cell scanned before it is filled. -/
def deadBoard : Board := fun r c =>
  if r.val = 0 then (if c.val = 0 then 3 else if c.val = 1 then 0
    else if c.val = 8 then 2 else c.val + 2)
  else if r.val = 4 ∧ c.val = 1 then 1
  else 0

/-! The claims. -/

/-- Claim C1: for every completely filled solution board, every difficulty
tier and every random sequence, the puzzle returned by make_puzzle satisfies
count_solutions(puzzle, 2) = 1; moreover a carving step whose tentative grid
does not count exactly 1 leaves the puzzle unchanged for that cell and only
advances the attempt counter. -/
theorem claim1_make_puzzle_unique (solution : Board) (d : Difficulty) (s : Rng)
    (hsol : Filled solution) :
    count_solutions (make_puzzle solution d s).1 2 = 1 ∧
    (∀ (i : ℕ) (rest : List ℕ) (p : Board) (clues target attempts : ℕ),
      target < clues → bget p (i / 9) (i % 9) ≠ 0 →
      count_solutions (carveTest p i).1 2 ≠ 1 → attempts + 1 ≤ 20000 →
      carveLoop (i :: rest) p clues target attempts =
        carveLoop rest p clues target (attempts + 1)) := by
  constructor
  · unfold make_puzzle
    dsimp only
    exact carveLoop_count _ solution 81 (target_clues d) 0
      (count_solutions_filled solution 2 hsol)
  · exact fun i rest p clues target attempts h1 h2 h3 h4 =>
      carveLoop_skip i rest p clues target attempts h1 h2 h3 h4

/-- Witness for claim C1: the base pattern, easy difficulty, the zero
random stream. -/
theorem claim1_witness :
    count_solutions (make_puzzle base_complete Difficulty.easy ⟨fun _ => 0, 0⟩).1 2 = 1 ∧
    (∀ (i : ℕ) (rest : List ℕ) (p : Board) (clues target attempts : ℕ),
      target < clues → bget p (i / 9) (i % 9) ≠ 0 →
      count_solutions (carveTest p i).1 2 ≠ 1 → attempts + 1 ≤ 20000 →
      carveLoop (i :: rest) p clues target attempts =
        carveLoop rest p clues target (attempts + 1)) :=
  claim1_make_puzzle_unique base_complete Difficulty.easy ⟨fun _ => 0, 0⟩ (by decide)

/-- Claim C2: for every random sequence, the board produced by
generate_complete has every cell in 1..9 and satisfies is_legal. -/
theorem claim2_generate_complete (s : Rng) :
    (∀ r c : Fin 9, 1 ≤ (generate_complete s).1 r c ∧ (generate_complete s).1 r c ≤ 9) ∧
    is_legal (generate_complete s).1 = true := by
  obtain ⟨hrange, hL⟩ := generate_complete_good s
  exact ⟨hrange, (is_legal_iff _).mpr hL⟩

/-- Claim C3: on a well-formed legal board with exactly one completion,
solve_board returns that completion; on an unsatisfiable board it returns
none. -/
theorem claim3_solve_correct (b U : Board) (hwf : WellFormed b)
    (hleg : is_legal b = true) :
    (IsCompletion b U → (∀ e, IsCompletion b e → e = U) → solve_board b = some U) ∧
    ((∀ e, ¬IsCompletion b e) → solve_board b = none) := by
  have hL := (is_legal_iff b).mp hleg
  exact ⟨fun hU huniq => solve_board_of_unique b U hwf hL hU huniq,
         fun hnone => solve_board_none_of_unsat b hwf hL hnone⟩

/-- Witness for claim C3: the complete base pattern is its own unique
completion and solve_board returns it. -/
theorem claim3_witness : solve_board base_complete = some base_complete :=
  (claim3_solve_correct base_complete base_complete (by decide) (by decide)).1
    (by decide)
    (fun e he => funext fun r => funext fun c =>
      he.1 r c ((by decide : ∀ (r c : Fin 9), base_complete r c ≠ 0) r c))

/-- Counterexample to claim C4 as stated: at limit k = 0 the bounded count
of a complete well-formed legal board is 1, outside [0, 0]. -/
theorem claim4_counterexample :
    WellFormed base_complete ∧ Legal base_complete ∧
    count_solutions base_complete 0 = 1 ∧ ¬(count_solutions base_complete 0 ≤ 0) := by
  refine ⟨by decide, by decide, ?_, ?_⟩
  · exact count_solutions_filled base_complete 0 (by decide)
  · rw [count_solutions_filled base_complete 0 (by decide)]
    omega

/-- Claim C4 (amended): for every well-formed legal board and every limit
k ≥ 1, count_solutions b k lies in [0, k], and when the true number of
completions is strictly below k the returned value is exactly that number. -/
theorem claim4_count_bound (b : Board) (k : ℕ) (hwf : WellFormed b)
    (hleg : is_legal b = true) (hk : 1 ≤ k) :
    count_solutions b k ≤ k ∧
    (numCompletions b < k → count_solutions b k = numCompletions b) := by
  have hL := (is_legal_iff b).mp hleg
  rw [count_solutions_spec b k hwf hL hk]
  exact ⟨Nat.min_le_right _ _, fun h => Nat.min_eq_left (by omega)⟩

/-- Witness for claim C4 at the base pattern with limit 2. -/
theorem claim4_witness :
    count_solutions base_complete 2 ≤ 2 ∧
    (numCompletions base_complete < 2 →
      count_solutions base_complete 2 = numCompletions base_complete) :=
  claim4_count_bound base_complete 2 (by decide) (by decide) (by decide)

/-- Claim C5: masks_init establishes the mask-consistency invariant from any
board, and the invariant is preserved by apply_set at an empty cell with a
digit 1..9 and by apply_clear on a legal well-formed board — the situations
in which search and carving perform them. -/
theorem claim5_mask_invariant (b : Board) (m : Masks) (r c : Fin 9) (v : ℕ)
    (hv1 : 1 ≤ v) (hv9 : v ≤ 9) (hempty : b r c = 0)
    (hcons : Consistent b m) (hL : Legal b) (hwf : WellFormed b) :
    Consistent b (masks_init b) ∧
    Consistent (apply_set b m r c v).1 (apply_set b m r c v).2 ∧
    Consistent (apply_clear b m r c).1 (apply_clear b m r c).2 :=
  ⟨masks_init_consistent b, consistent_apply_set b m r c v hcons hempty hv1,
   consistent_apply_clear b m r c hcons hL hwf⟩

/-- Witness for claim C5 on the base pattern with its corner cleared. -/
theorem claim5_witness :
    Consistent cornerCleared (masks_init cornerCleared) ∧
    Consistent (apply_set cornerCleared (masks_init cornerCleared) 0 0 1).1
      (apply_set cornerCleared (masks_init cornerCleared) 0 0 1).2 ∧
    Consistent (apply_clear cornerCleared (masks_init cornerCleared) 0 0).1
      (apply_clear cornerCleared (masks_init cornerCleared) 0 0).2 :=
  claim5_mask_invariant cornerCleared (masks_init cornerCleared) 0 0 1
    (by decide) (by decide) (by decide) (masks_init_consistent cornerCleared)
    (by decide) (by decide)

/-- Counterexample to claim C6 as stated: on cexBoard the cell (0,1) is
empty with zero candidates, yet find_best_cell does not fail — it stops at
the earlier singleton cell (0,0). -/
theorem claim6_counterexample :
    cexBoard 0 1 = 0 ∧ candidates_mask (masks_init cexBoard) 0 1 = 0 ∧
    find_best_cell cexBoard (masks_init cexBoard) ≠ none := by
  refine ⟨by decide, by decide, ?_⟩
  decide

/-- Claim C6 (amended): the scan fails only when an empty cell with zero
candidates is encountered before any singleton cell; and when the first
empty cell with at most one candidate is a singleton, the scan stops there
and that cell is the choice, whatever the candidate counts of the cells
scanned before it. -/
theorem claim6_find_best_cell (b : Board) (m : Masks) :
    (∀ (P : List (Fin 9 × Fin 9)) (z : Fin 9 × Fin 9) (rest : List (Fin 9 × Fin 9)),
      cellsRowMajor = P ++ z :: rest →
      (∀ p ∈ P, ¬(b p.1 p.2 = 0 ∧ popcount9 (candidates_mask m p.1 p.2) ≤ 1)) →
      b z.1 z.2 = 0 → popcount9 (candidates_mask m z.1 z.2) = 0 →
      find_best_cell b m = none) ∧
    (∀ (P : List (Fin 9 × Fin 9)) (z : Fin 9 × Fin 9) (rest : List (Fin 9 × Fin 9)),
      cellsRowMajor = P ++ z :: rest →
      (∀ p ∈ P, ¬(b p.1 p.2 = 0 ∧ popcount9 (candidates_mask m p.1 p.2) ≤ 1)) →
      b z.1 z.2 = 0 → popcount9 (candidates_mask m z.1 z.2) = 1 →
      find_best_cell b m = some ⟨z.1, z.2, candidates_mask m z.1 z.2⟩) := by
  constructor
  · intro P z rest hsplit hP hz0 hzc
    unfold find_best_cell
    rw [hsplit]
    exact fbcAux_dead_first b m P z rest none 10 (by omega) hP hz0 hzc
  · intro P z rest hsplit hP hz0 hzc
    unfold find_best_cell
    rw [hsplit]
    exact fbcAux_first_singleton b m P z rest none 10 (by omega) hP hz0 hzc

/-- Witness for claim C6 on deadBoard: its first empty cell (0,1) has zero
candidates and selection fails. -/
theorem claim6_witness :
    find_best_cell deadBoard (masks_init deadBoard) = none :=
  (claim6_find_best_cell deadBoard (masks_init deadBoard)).1
    [((0 : Fin 9), (0 : Fin 9))] ((0 : Fin 9), (1 : Fin 9))
    (List.drop 2 cellsRowMajor) (by decide) (by decide) (by decide) (by decide)

/-- Counterexample to claim C7 as stated: on the complete base pattern
(cell (0,0) holds 1, which is not empty), apply_set then apply_clear at
(0,0) with digit 1 does not restore the state — the cell ends empty. -/
theorem claim7_counterexample :
    ¬(apply_clear (apply_set base_complete (masks_init base_complete) 0 0 1).1
        (apply_set base_complete (masks_init base_complete) 0 0 1).2 0 0 =
      (base_complete, masks_init base_complete)) := by
  decide

/-- Claim C7 (amended): when the cell is empty, the digit is 1..9 and is a
candidate there (its bit absent from all three masks), and the masks are
32-bit values as in the C struct, apply_set followed by apply_clear restores
the board and all masks exactly. -/
theorem claim7_roundtrip (b : Board) (m : Masks) (r c : Fin 9) (v : ℕ)
    (hempty : b r c = 0) (hv1 : 1 ≤ v) (hv9 : v ≤ 9) (hm : MasksU32 m)
    (hcand : (candidates_mask m r c).testBit (v - 1) = true) :
    apply_clear (apply_set b m r c v).1 (apply_set b m r c v).2 r c = (b, m) := by
  obtain ⟨-, hu⟩ := (testBit_candidates m r c (v - 1)).mp hcand
  obtain ⟨h1, h2, h3⟩ := used_mask_false m r c (v - 1) hu
  exact set_clear_roundtrip b m r c v hempty hv1 hv9 hm h1 h2 h3

/-- Witness for claim C7 on the corner-cleared base pattern with digit 1. -/
theorem claim7_witness :
    apply_clear (apply_set cornerCleared (masks_init cornerCleared) 0 0 1).1
      (apply_set cornerCleared (masks_init cornerCleared) 0 0 1).2 0 0 =
    (cornerCleared, masks_init cornerCleared) :=
  claim7_roundtrip cornerCleared (masks_init cornerCleared) 0 0 1
    (by decide) (by decide) (by decide) (by decide) (by decide)

/-- Claim C8: with fuel 82 the fuelled count_rec and solve_rec never run out
of fuel (recursion depth is bounded by the 81 cells), and each recursive
call strictly decreases the number of empty cells: apply_set of a nonzero
digit at an empty cell lowers emptyCount, which never exceeds 81. -/
theorem claim8_termination (b : Board) (m : Masks) (lim : ℕ) (r c : Fin 9) (v : ℕ)
    (hm : MasksU32 m) (hempty : b r c = 0) (hv : v ≠ 0) :
    (count_rec 82 b m lim).isSome = true ∧ (solve_rec 82 b m).isSome = true ∧
    emptyCount (apply_set b m r c v).1 < emptyCount b ∧ emptyCount b ≤ 81 :=
  ⟨count_rec_total 82 b m lim hm (by have := emptyCount_le_81 b; omega),
   solve_rec_total 82 b m hm (by have := emptyCount_le_81 b; omega),
   by rw [apply_set_fst]; exact emptyCount_update_lt b r c v hempty hv,
   emptyCount_le_81 b⟩

/-- Witness for claim C8 on the corner-cleared base pattern. -/
theorem claim8_witness :
    (count_rec 82 cornerCleared (masks_init cornerCleared) 2).isSome = true ∧
    (solve_rec 82 cornerCleared (masks_init cornerCleared)).isSome = true ∧
    emptyCount (apply_set cornerCleared (masks_init cornerCleared) 0 0 5).1 <
      emptyCount cornerCleared ∧
    emptyCount cornerCleared ≤ 81 :=
  claim8_termination cornerCleared (masks_init cornerCleared) 2 0 0 5
    (by decide) (by decide) (by decide)

/-- Claim C9: whenever solve_rec returns false, the board and the masks at
exit equal their values at entry (masks being 32-bit values as in the C
struct): every tentative apply_set was undone by a matching apply_clear. -/
theorem claim9_solve_failure_state (fuel : ℕ) (b : Board) (m : Masks)
    (b2 : Board) (m2 : Masks) (hm : MasksU32 m)
    (h : solve_rec fuel b m = some (false, b2, m2)) : b2 = b ∧ m2 = m :=
  solve_rec_state fuel b m b2 m2 hm h

/-- Witness for claim C9 on deadBoard, where the first recursion level
fails immediately. -/
theorem claim9_witness : deadBoard = deadBoard ∧ masks_init deadBoard = masks_init deadBoard :=
  claim9_solve_failure_state 1 deadBoard (masks_init deadBoard) deadBoard
    (masks_init deadBoard) (by decide) (by decide)

/-- Claim C10: count_rec returns the board and masks it was given (masks
being 32-bit values as in the C struct): together with the explicit copy in
count_solutions, the board passed to count_solutions is never modified. -/
theorem claim10_count_state (fuel : ℕ) (b : Board) (m : Masks) (lim t : ℕ)
    (b2 : Board) (m2 : Masks) (hm : MasksU32 m)
    (h : count_rec fuel b m lim = some (t, b2, m2)) : b2 = b ∧ m2 = m :=
  count_rec_state fuel b m lim t b2 m2 hm h

/-- Witness for claim C10 on the complete base pattern. -/
theorem claim10_witness :
    base_complete = base_complete ∧
    masks_init base_complete = masks_init base_complete :=
  claim10_count_state 1 base_complete (masks_init base_complete) 2 1 base_complete
    (masks_init base_complete) (by decide) (by decide)

end Sudoku
